import Mathlib

/-!
# cf-stats: the host/application placement report

A shallow embedding of `main.go` (`listApps`, `listProcessStats`, `IndexHandler`)
together with models of the Go library calls it relies on (`net.ParseIP`,
`bytes.Compare`, `sort.Strings`, `sort.Slice`, iteration over a `map`, the
paginated Cloud Foundry client).
-/

namespace CfStats

/-! ## Data model -/

/-- The value of a Go `error`: its message (what `err.Error()` returns). -/
abbrev GoError := String

/-- The struct `HostToAppsDetail` of `main.go`. -/
structure HostToAppsDetail where
  Host : String
  Apps : List String
deriving DecidableEq

/-- The fields of `resource.App` that `main.go` reads. -/
structure App where
  GUID : String
  Name : String
deriving DecidableEq

/-- The field of `resource.ProcessStat` that `main.go` reads. -/
structure ProcessStat where
  Host : String
deriving DecidableEq

/-! ## Go standard library: `bytes.Compare` and `net.ParseIP` -/

/-- Go `bytes.Compare`: lexicographic comparison of two byte slices, a `nil`
slice being the empty one. The result is `-1`, `0` or `1`. -/
def bytesCompare : List Nat → List Nat → Int
  | [], [] => 0
  | [], _ :: _ => -1
  | _ :: _, [] => 1
  | x :: xs, y :: ys =>
    if x < y then -1 else if y < x then 1 else bytesCompare xs ys

/-- Go `net.IPv4(a, b, c, d)`: the 16-byte (IPv4-in-IPv6) form of `a.b.c.d`. -/
def IPv4 (a b c d : Nat) : List Nat :=
  [0, 0, 0, 0, 0, 0, 0, 0, 0, 0, 255, 255, a, b, c, d]

/-- The 32-bit value of the address `a.b.c.d`. -/
def ipv4Value (a b c d : Nat) : Nat :=
  a * 2 ^ 24 + b * 2 ^ 16 + c * 2 ^ 8 + d

/-- The loop of Go `netip.parseIPv4Fields` over the bytes not yet read: `prev`
is the byte before the current one (`none` at index 0), `val` and `digLen`
the octet being read, `fields` the octets already stored. The result is the
state at the end of the loop, `none` when the loop returns an error. -/
def parseIPv4Loop : List Char → Option Char → Nat → Nat → List Nat → Option (Nat × List Nat)
  | [], _, val, _, fields => some (val, fields)
  | c :: rest, prev, val, digLen, fields =>
    if 48 ≤ c.toNat ∧ c.toNat ≤ 57 then
      if digLen = 1 ∧ val = 0 then none
      else if val * 10 + (c.toNat - 48) > 255 then none
      else parseIPv4Loop rest (some c) (val * 10 + (c.toNat - 48)) (digLen + 1) fields
    else if c = '.' then
      if prev = none ∨ rest = [] ∨ prev = some '.' then none
      else if fields.length = 3 then none
      else parseIPv4Loop rest (some c) 0 0 (fields ++ [val])
    else none

/-- Go `netip.parseIPv4Fields`: the four octets of a dotted-decimal address
(octets without leading zero, at most 255), or `none`. -/
def parseIPv4Fields (s : List Char) : Option (List Nat) :=
  match parseIPv4Loop s none 0 0 [] with
  | none => none
  | some (val, fields) => if fields.length < 3 then none else some (fields ++ [val])

/-- The value of a hexadecimal digit. -/
def hexVal (c : Char) : Option Nat :=
  if 48 ≤ c.toNat ∧ c.toNat ≤ 57 then some (c.toNat - 48)
  else if 97 ≤ c.toNat ∧ c.toNat ≤ 102 then some (c.toNat - 97 + 10)
  else if 65 ≤ c.toNat ∧ c.toNat ≤ 70 then some (c.toNat - 65 + 10)
  else none

/-- The inner loop of Go `netip.parseIPv6` reading one group of hexadecimal
digits: returns the number of digits read, their value and the text left, or
`none` for a group of more than four digits. -/
def scanHex : List Char → Nat → Nat → Option (Nat × Nat × List Char)
  | [], off, acc => some (off, acc, [])
  | c :: cs, off, acc =>
    match hexVal c with
    | none => some (off, acc, c :: cs)
    | some d =>
      if off > 3 then none
      else if acc * 16 + d > 65535 then none
      else scanHex cs (off + 1) (acc * 16 + d)

/-- The main loop of Go `netip.parseIPv6` (`for i < 16`): `ip` holds the
bytes written so far (`i = ip.length`), `ellipsis` the position of `::`. Each
round writes two bytes, so eight rounds are all the loop can make. Returns
the text left, the bytes and the ellipsis, or `none` on an error. -/
def parseIPv6Loop : Nat → List Char → List Nat → Option Nat →
    Option (List Char × List Nat × Option Nat)
  | 0, s, ip, ellipsis => some (s, ip, ellipsis)
  | n + 1, s, ip, ellipsis =>
    if ¬ ip.length < 16 then some (s, ip, ellipsis)
    else
      match scanHex s 0 0 with
      | none => none
      | some (off, acc, rest) =>
        if off = 0 then none
        else if rest.head? = some '.' then
          if ellipsis = none ∧ ip.length ≠ 12 then none
          else if ip.length + 4 > 16 then none
          else
            match parseIPv4Fields s with
            | none => none
            | some f => some ([], ip ++ f, ellipsis)
        else
          match rest with
          | [] => some ([], ip ++ [acc / 256, acc % 256], ellipsis)
          | c :: rest1 =>
            if c ≠ ':' then none
            else
              match rest1 with
              | [] => none
              | c1 :: rest2 =>
                if c1 = ':' then
                  if ellipsis.isSome then none
                  else
                    match rest2 with
                    | [] => some ([], ip ++ [acc / 256, acc % 256], some (ip.length + 2))
                    | _ :: _ =>
                      parseIPv6Loop n rest2 (ip ++ [acc / 256, acc % 256]) (some (ip.length + 2))
                else parseIPv6Loop n rest1 (ip ++ [acc / 256, acc % 256]) ellipsis

/-- What Go `netip.parseIPv6` does once its loop is over: the whole text must
have been read, and a short address is completed with zeros at the
ellipsis. -/
def expandIPv6 : List Char × List Nat × Option Nat → Option (List Nat)
  | (s, ip, ellipsis) =>
    if s ≠ [] then none
    else if ip.length < 16 then
      match ellipsis with
      | none => none
      | some e => some (ip.take e ++ List.replicate (16 - ip.length) 0 ++ ip.drop e)
    else if ellipsis.isSome then none
    else some ip

/-- Go `netip.parseIPv6` as `net.ParseIP` uses it: the 16 bytes of an IPv6
address in text form, or `none`. An address with a zone (`%`) is an error
when the zone is empty and is rejected by `net.ParseIP` when it is not. -/
def parseIPv6 (s : List Char) : Option (List Nat) :=
  if '%' ∈ s then none
  else
    match s with
    | ':' :: ':' :: [] => some (List.replicate 16 0)
    | ':' :: ':' :: s1 =>
      match parseIPv6Loop 8 s1 [] (some 0) with
      | none => none
      | some st => expandIPv6 st
    | _ =>
      match parseIPv6Loop 8 s [] none with
      | none => none
      | some st => expandIPv6 st

/-- The dispatch of Go `netip.ParseAddr`: the first `.`, `:` or `%` of the
text decides how it is read. `rest` is the text not yet scanned, `s` all of
it. -/
def parseAddr (s : List Char) : List Char → Option (List Nat)
  | [] => none
  | c :: rest =>
    if c = '.' then
      match parseIPv4Fields s with
      | none => none
      | some f => some (IPv4 (f.getD 0 0) (f.getD 1 0) (f.getD 2 0) (f.getD 3 0))
    else if c = ':' then parseIPv6 s
    else if c = '%' then none
    else parseAddr s rest

/-- Go `net.ParseIP`: the 16 bytes of the address the text denotes, or `nil`
(the empty list) when the text is not an address. -/
def ParseIP (s : String) : List Nat :=
  match parseAddr s.toList s.toList with
  | none => []
  | some ip => ip

/-! ## Go standard library: sorting and map iteration -/

/-- Go `sort.Strings`: the strings in ascending order (Go compares strings
byte-wise; on valid UTF-8 that is the order of the code points, the order of
`String`). Equal strings cannot be told apart, so every sorting algorithm
returns this list. -/
def sortStrings (l : List String) : List String :=
  l.insertionSort (fun a b => a.toList ≤ b.toList)

/-- Go `sort.SliceIsSorted`: no element is `less` than the one before it. -/
def SliceIsSorted {α : Type} (less : α → α → Bool) : List α → Bool
  | [] => true
  | [_] => true
  | a :: b :: l => !less b a && SliceIsSorted less (b :: l)

/-- The requirement Go's `sort` package puts on a `less` function: a
transitive ordering whose incomparability is transitive too. -/
def StrictWeak {α : Type} (less : α → α → Bool) : Prop :=
  (∀ a, less a a = false) ∧
  (∀ a b c, less a b = true → less b c = true → less a c = true) ∧
  (∀ a b c, less a b = false → less b c = false → less a c = false)

/-- The aggregation map `map[string]*HostToAppsDetail`, as the list of its
key/value pairs. The order of the list is not observable: the program reads
the map through `find`, `store` and the runtime's `mapRange` only. -/
abbrev HostMap := List (String × HostToAppsDetail)

/-- The map read `d, ok := results[host]`. -/
def HostMap.find : HostMap → String → Option HostToAppsDetail
  | [], _ => none
  | (k, d) :: m, host => if k = host then some d else HostMap.find m host

/-- The map write `results[host] = d`; it also stands for an update made
through the pointer the map holds for `host`. -/
def HostMap.store : HostMap → String → HostToAppsDetail → HostMap
  | [], host, d => [(host, d)]
  | (k, d0) :: m, host, d =>
    if k = host then (k, d) :: m else (k, d0) :: HostMap.store m host d

/-- The two places where Go leaves the result open: the order in which
`range` visits a map, and the arrangement `sort.Slice` (not stable) gives to
elements that compare equal. One value of `Runtime` is one way a run goes. -/
structure Runtime where
  mapRange : HostMap → List HostToAppsDetail
  sortSlice : (HostToAppsDetail → HostToAppsDetail → Bool) →
    List HostToAppsDetail → List HostToAppsDetail

/-- What Go guarantees of a run: `range` visits every value of the map once,
`sort.Slice` permutes the slice, and the slice it leaves is sorted when
`less` is an ordering. -/
def Runtime.Lawful (rt : Runtime) : Prop :=
  (∀ m, (rt.mapRange m).Perm (m.map Prod.snd)) ∧
  (∀ less l, (rt.sortSlice less l).Perm l) ∧
  (∀ less l, StrictWeak less → SliceIsSorted less (rt.sortSlice less l) = true)

/-! ## The Cloud Foundry client -/

/-- The backend behind the global `cf`: the pages of the application
catalogue, each one either a batch of applications or the error its request
fails with, and the answer to the process-statistics request of each
application GUID. -/
structure Client where
  pages : List (Except GoError (List App))
  stats : String → Except GoError (List ProcessStat)

/-- The `*client.Pager` of a page: `HasNextPage()` and the page that
`NextPage(opts)` moves `opts` to. -/
structure Pager where
  HasNextPage : Bool
  NextPage : Nat

/-- The call `cf.Applications.List(ctx, opts)` with `opts` at page `opts`
(counted from 0). A catalogue without any page answers the first request
with an empty batch and no next page. -/
def Client.ApplicationsList (cf : Client) (opts : Nat) : Except GoError (List App × Pager) :=
  match cf.pages.get? opts with
  | none => .ok ([], ⟨false, opts⟩)
  | some (.error err) => .error err
  | some (.ok apps) => .ok (apps, ⟨decide (opts + 1 < cf.pages.length), opts + 1⟩)

/-- The call `cf.Processes.GetStatsForApp(ctx, guid, "web")`; the answer is
the `Stats` slice. -/
def Client.GetStatsForApp (cf : Client) (guid : String) : Except GoError (List ProcessStat) :=
  cf.stats guid

/-- A remote call of `listApps`. -/
inductive Call where
  | ApplicationsList (page : Nat)
  | GetStatsForApp (guid : String)
deriving DecidableEq

/-- A remote call with the error it returned, if any. -/
structure CallRecord where
  call : Call
  err : Option GoError
deriving DecidableEq

/-! ## `main.go` -/

/-- The body of the loop `for _, s := range stats.Stats` of
`listProcessStats`, for the application named `appName`. -/
def recordStat (appName : String) (results : HostMap) (s : ProcessStat) : HostMap :=
  match results.find s.Host with
  | some d => results.store s.Host { d with Apps := d.Apps ++ [appName] }
  | none => results.store s.Host { Host := s.Host, Apps := [] ++ [appName] }

/-- The function `listProcessStats` of `main.go`: returns its error, the map
as the function leaves it and the log of remote calls. -/
def listProcessStats (cf : Client) (app : App) (results : HostMap) (calls : List CallRecord) :
    Option GoError × HostMap × List CallRecord :=
  match cf.GetStatsForApp app.GUID with
  | .error err => (some err, results, calls ++ [⟨.GetStatsForApp app.GUID, some err⟩])
  | .ok stats =>
    (none, stats.foldl (recordStat app.Name) results,
      calls ++ [⟨.GetStatsForApp app.GUID, none⟩])

/-- The loop `for _, app := range apps` of `listApps`, which returns at the
first error. -/
def forApps (cf : Client) : List App → HostMap → List CallRecord →
    Option GoError × HostMap × List CallRecord
  | [], results, calls => (none, results, calls)
  | app :: apps, results, calls =>
    match listProcessStats cf app results calls with
    | (some err, results1, calls1) => (some err, results1, calls1)
    | (none, results1, calls1) => forApps cf apps results1 calls1

/-- The loop `for { ... }` of `listApps` over the pages, `opts` being the
page to request next. The first argument bounds the number of rounds;
`none` means the bound was reached. -/
def forPages (cf : Client) : Nat → Nat → HostMap → List CallRecord →
    Option (Option GoError × HostMap × List CallRecord)
  | 0, _, _, _ => none
  | fuel + 1, opts, results, calls =>
    match cf.ApplicationsList opts with
    | .error err => some (some err, results, calls ++ [⟨.ApplicationsList opts, some err⟩])
    | .ok (apps, pager) =>
      match forApps cf apps results (calls ++ [⟨.ApplicationsList opts, none⟩]) with
      | (some err, results1, calls1) => some (some err, results1, calls1)
      | (none, results1, calls1) =>
        if !pager.HasNextPage then some (none, results1, calls1)
        else forPages cf fuel pager.NextPage results1 calls1

/-- What `listApps` returns, `results` being its slice (`nil` is `[]`) and
`err` its error, with the log of the remote calls it made. -/
structure ListAppsResult where
  results : List HostToAppsDetail
  err : Option GoError
  calls : List CallRecord
deriving DecidableEq

/-- The `less` function `listApps` hands to `sort.Slice`. -/
def hostLess (x y : HostToAppsDetail) : Bool :=
  decide (bytesCompare (ParseIP x.Host) (ParseIP y.Host) < 0)

/-- The body of the loop `for _, v := range unsortedResults` of `listApps`:
`sort.Strings(v.Apps)`, after which `v` is appended to `results`. -/
def sortApps (v : HostToAppsDetail) : HostToAppsDetail :=
  { v with Apps := sortStrings v.Apps }

/-- The function `listApps` of `main.go`. The page loop gets one round more
than the catalogue has pages; `none` would mean that was not enough. -/
def listApps (rt : Runtime) (cf : Client) : Option ListAppsResult :=
  match forPages cf (cf.pages.length + 1) 0 [] [] with
  | none => none
  | some (some err, _, calls) => some ⟨[], some err, calls⟩
  | some (none, unsortedResults, calls) =>
    let results := (rt.mapRange unsortedResults).map sortApps
    some ⟨rt.sortSlice hostLess results, none, calls⟩

/-- What `IndexHandler` does to its `http.ResponseWriter` and to the log. -/
inductive Effect where
  | logPrintf (format : String)
  | WriteHeader (statusCode : Nat)
  | HeaderSet (key value : String)
  | Fprint (text : String)
deriving DecidableEq

/-- The markup `IndexHandler` writes for one entry of the report. -/
def renderHost (d : HostToAppsDetail) : List Effect :=
  [.Fprint ("<h2>Host: " ++ d.Host ++ "</h2>"), .Fprint "<ul>"] ++
    d.Apps.map (fun a => .Fprint ("<li>" ++ a ++ "</li>")) ++ [.Fprint "</ul>"]

/-- The function `IndexHandler` of `main.go`: the effects of one request, in
order. -/
def IndexHandler (rt : Runtime) (cf : Client) : Option (List Effect) :=
  match listApps rt cf with
  | none => none
  | some r =>
    some ((match r.err with
        | some err => [.logPrintf err, .WriteHeader 500]
        | none => []) ++
      [.HeaderSet "Content-Type" "text/html", .WriteHeader 200,
        .Fprint "<h1>CF Application Placements</h1>"] ++
      r.results.flatMap renderHost)

/-! ## What a run is expected to have seen -/

/-- The applications of all pages, in catalogue order. -/
def listedApps (cf : Client) : List App :=
  cf.pages.flatMap (fun p => match p with
    | .ok apps => apps
    | .error _ => [])

/-- The instance records of an application. -/
def instancesOf (cf : Client) (app : App) : List ProcessStat :=
  match cf.stats app.GUID with
  | .ok stats => stats
  | .error _ => []

/-- The placement records of the catalogue, host first, application name
second, in the order `listApps` meets them. -/
def placements (cf : Client) : List (String × String) :=
  (listedApps cf).flatMap (fun app => (instancesOf cf app).map (fun s => (s.Host, app.Name)))

/-- The remote calls a page gives rise to: its request, then one statistics
request for each of its applications. -/
def pageCalls (page : Nat) (apps : List App) : List CallRecord :=
  ⟨.ApplicationsList page, none⟩ :: apps.map (fun app => ⟨.GetStatsForApp app.GUID, none⟩)

/-- The remote calls of a run over the pages `ps`, the first of which is
page number `page`. -/
def pagesCalls : Nat → List (List App) → List CallRecord
  | _, [] => []
  | page, apps :: ps => pageCalls page apps ++ pagesCalls (page + 1) ps

/-- The `Applications.List` requests among `calls`, as page numbers. -/
def listRequests (calls : List CallRecord) : List Nat :=
  calls.filterMap (fun c => match c.call with
    | .ApplicationsList page => some page
    | .GetStatsForApp _ => none)

/-- The `GetStatsForApp` requests among `calls`, as GUIDs. -/
def statsRequests (calls : List CallRecord) : List String :=
  calls.filterMap (fun c => match c.call with
    | .ApplicationsList _ => none
    | .GetStatsForApp guid => some guid)

/-- The names the placement records `recs` give host `h`, in order. -/
def appsAt (recs : List (String × String)) (h : String) : List String :=
  (recs.filter (fun p => p.1 = h)).map Prod.snd

/-- The placement records of the applications `apps`. -/
def placementsOf (cf : Client) (apps : List App) : List (String × String) :=
  apps.flatMap (fun app => (instancesOf cf app).map (fun s => (s.Host, app.Name)))

/-- The map `m` is what folding the placement records `recs` leaves: one key
for each host of `recs`, whose value carries that host and its names in
order of arrival. -/
def Aggregated (recs : List (String × String)) (m : HostMap) : Prop :=
  (m.map Prod.fst).Nodup ∧
  (∀ k, m.find k = if appsAt recs k = [] then none else some ⟨k, appsAt recs k⟩) ∧
  (m.map (fun p => p.2.Apps.length)).sum = recs.length

/-- The page loop of `listApps` unrolled over the pages still to request,
`page` being the number of the first of them. -/
def pagesRun (cf : Client) : List (Except GoError (List App)) → Nat → HostMap →
    List CallRecord → Option GoError × HostMap × List CallRecord
  | [], _, results, calls => (none, results, calls)
  | .error err :: _, page, results, calls =>
    (some err, results, calls ++ [⟨.ApplicationsList page, some err⟩])
  | .ok apps :: rest, page, results, calls =>
    match forApps cf apps results (calls ++ [⟨.ApplicationsList page, none⟩]) with
    | (some err, results1, calls1) => (some err, results1, calls1)
    | (none, results1, calls1) => pagesRun cf rest (page + 1) results1 calls1

/-- The pages `listApps` gets to see: those of the catalogue, or the one
empty page a catalogue without pages answers with. -/
def effectivePages (cf : Client) : List (Except GoError (List App)) :=
  match cf.pages with
  | [] => [.ok []]
  | p :: ps => p :: ps

/-- The log `calls` is that of a run which stopped at its first error:
either no call failed and there is no error, or the last call failed, no
call before it did, and the error is that call's. -/
def FailFast (err : Option GoError) (calls : List CallRecord) : Prop :=
  match err with
  | none => ∀ x ∈ calls, x.err = none
  | some e => ∃ pre c, calls = pre ++ [⟨c, some e⟩] ∧ ∀ x ∈ pre, x.err = none

/-- The error the backend answers a call with, if any. -/
def Client.answer (cf : Client) : Call → Option GoError
  | .ApplicationsList page =>
    match cf.ApplicationsList page with
    | .error err => some err
    | .ok _ => none
  | .GetStatsForApp guid =>
    match cf.GetStatsForApp guid with
    | .error err => some err
    | .ok _ => none

/-- The aggregation map as the page loop of `listApps` leaves it. -/
def aggregate (cf : Client) : HostMap :=
  (pagesRun cf (effectivePages cf) 0 [] []).2.1

/-! ## Concrete runtimes and backends -/

/-- A run in which `range` visits the map in insertion order and
`sort.Slice` behaves as an insertion sort. -/
def insertionRuntime : Runtime where
  mapRange := fun m => m.map Prod.snd
  sortSlice := fun less l => l.insertionSort (fun a b => less b a = false)

/-- A run in which `range` visits the map in the opposite order. -/
def reverseRuntime : Runtime where
  mapRange := fun m => (m.map Prod.snd).reverse
  sortSlice := fun less l => l.insertionSort (fun a b => less b a = false)

/-- The example of the specification: application A with one instance at
10.0.0.5, application B with instances at 10.0.0.2 and 10.0.0.5. -/
def exampleClient : Client where
  pages := [.ok [⟨"guid-a", "A"⟩, ⟨"guid-b", "B"⟩]]
  stats := fun guid =>
    if guid = "guid-a" then .ok [⟨"10.0.0.5"⟩]
    else if guid = "guid-b" then .ok [⟨"10.0.0.2"⟩, ⟨"10.0.0.5"⟩]
    else .error "not found"

/-- One application with instances on two hosts whose identifiers are
names, not addresses. -/
def tieClient : Client where
  pages := [.ok [⟨"guid-a", "A"⟩]]
  stats := fun _ => .ok [⟨"cell-a"⟩, ⟨"cell-b"⟩]

/-- A catalogue without any page. -/
def emptyClient : Client where
  pages := []
  stats := fun _ => .ok []

/-- A backend whose first page request fails. -/
def failingClient : Client where
  pages := [.error "connection refused"]
  stats := fun _ => .ok []

/-- One application with instances at four IPv4 addresses whose textual and
numeric orders differ. -/
def numericClient : Client where
  pages := [.ok [⟨"guid-a", "A"⟩]]
  stats := fun _ => .ok [⟨"10.0.0.9"⟩, ⟨"10.0.0.10"⟩, ⟨"9.255.255.255"⟩, ⟨"10.0.0.0"⟩]

/-- Two pages and three applications: A with one instance at an address and
one at a host named `cell-a`, B without instances, C with one instance at
the address of A. -/
def mixedClient : Client where
  pages := [.ok [⟨"guid-a", "A"⟩], .ok [⟨"guid-b", "B"⟩, ⟨"guid-c", "C"⟩]]
  stats := fun guid =>
    if guid = "guid-a" then .ok [⟨"10.0.0.5"⟩, ⟨"cell-a"⟩]
    else if guid = "guid-b" then .ok []
    else .ok [⟨"10.0.0.5"⟩]

/-- Two applications with the same name, the first with two instances on one
host, the second with one instance on that host. -/
def duplicateClient : Client where
  pages := [.ok [⟨"guid-1", "A"⟩, ⟨"guid-2", "A"⟩]]
  stats := fun guid =>
    if guid = "guid-1" then .ok [⟨"10.0.0.5"⟩, ⟨"10.0.0.5"⟩]
    else .ok [⟨"10.0.0.5"⟩]

/-- Three applications on one page; the statistics request of the second
fails after the first has put a host in the map. -/
def statsFailClient : Client where
  pages := [.ok [⟨"guid-a", "A"⟩, ⟨"guid-b", "B"⟩, ⟨"guid-c", "C"⟩]]
  stats := fun guid =>
    if guid = "guid-b" then .error "transport error" else .ok [⟨"10.0.0.5"⟩]

/-! ## `bytes.Compare` is a total preorder on keys -/

theorem bytesCompare_self (a : List Nat) : bytesCompare a a = 0 := by
  induction a with
  | nil => rfl
  | cons x xs ih => simp [bytesCompare, ih]

theorem bytesCompare_eq_zero {a b : List Nat} : bytesCompare a b = 0 ↔ a = b := by
  constructor
  · intro h
    induction a generalizing b with
    | nil =>
      cases b with
      | nil => rfl
      | cons y ys => simp [bytesCompare] at h
    | cons x xs ih =>
      cases b with
      | nil => simp [bytesCompare] at h
      | cons y ys =>
        simp only [bytesCompare] at h
        split_ifs at h with h1 h2
        all_goals first
          | (have hxy : x = y := by omega
             rw [hxy, ih h])
          | (exfalso; revert h; decide)
  · rintro rfl
    exact bytesCompare_self a

theorem bytesCompare_swap (a b : List Nat) : bytesCompare b a = - bytesCompare a b := by
  induction a generalizing b with
  | nil => cases b <;> simp [bytesCompare]
  | cons x xs ih =>
    cases b with
    | nil => simp [bytesCompare]
    | cons y ys =>
      simp only [bytesCompare]
      split_ifs <;> first | omega | rfl | exact ih ys

theorem bytesCompare_trans_le {a b c : List Nat} (hab : bytesCompare a b ≤ 0)
    (hbc : bytesCompare b c ≤ 0) : bytesCompare a c ≤ 0 := by
  induction a generalizing b c with
  | nil => cases c <;> simp [bytesCompare]
  | cons x xs ih =>
    cases b with
    | nil => simp [bytesCompare] at hab
    | cons y ys =>
      cases c with
      | nil => simp [bytesCompare] at hbc
      | cons z zs =>
        simp only [bytesCompare] at hab hbc ⊢
        split_ifs at hab hbc ⊢ <;> first | omega | exact ih hab hbc

theorem bytesCompare_trans_lt {a b c : List Nat} (hab : bytesCompare a b < 0)
    (hbc : bytesCompare b c < 0) : bytesCompare a c < 0 := by
  induction a generalizing b c with
  | nil =>
    cases c with
    | nil => cases b <;> simp [bytesCompare] at hab hbc
    | cons z zs => simp [bytesCompare]
  | cons x xs ih =>
    cases b with
    | nil => simp [bytesCompare] at hab
    | cons y ys =>
      cases c with
      | nil => simp [bytesCompare] at hbc
      | cons z zs =>
        simp only [bytesCompare] at hab hbc ⊢
        split_ifs at hab hbc ⊢ <;> first | omega | exact ih hab hbc

theorem bytesCompare_nil_left (b : List Nat) : bytesCompare [] b ≤ 0 := by
  cases b <;> simp [bytesCompare]

theorem bytesCompare_nil_right {a : List Nat} (h : bytesCompare a [] ≤ 0) : a = [] := by
  cases a with
  | nil => rfl
  | cons x xs => simp [bytesCompare] at h

theorem hostLess_false_iff (x y : HostToAppsDetail) :
    hostLess y x = false ↔ bytesCompare (ParseIP x.Host) (ParseIP y.Host) ≤ 0 := by
  unfold hostLess
  rw [decide_eq_false_iff_not, bytesCompare_swap]
  omega

theorem hostLess_true_iff (x y : HostToAppsDetail) :
    hostLess x y = true ↔ bytesCompare (ParseIP x.Host) (ParseIP y.Host) < 0 := by
  unfold hostLess
  rw [decide_eq_true_iff]

theorem hostLess_strictWeak : StrictWeak hostLess := by
  refine ⟨?_, ?_, ?_⟩
  · intro a
    rw [hostLess_false_iff, bytesCompare_self]
  · intro a b c hab hbc
    rw [hostLess_true_iff] at hab hbc ⊢
    exact bytesCompare_trans_lt hab hbc
  · intro a b c hab hbc
    rw [hostLess_false_iff] at hab hbc ⊢
    exact bytesCompare_trans_le hbc hab

/-! ## Sorted slices -/

theorem sliceIsSorted_chain {α : Type} (less : α → α → Bool) (l : List α)
    (h : SliceIsSorted less l = true) : List.Chain' (fun a b => less b a = false) l := by
  induction l with
  | nil => exact List.chain'_nil
  | cons a l ih =>
    cases l with
    | nil => exact List.chain'_singleton a
    | cons b l =>
      simp only [SliceIsSorted, Bool.and_eq_true, Bool.not_eq_true'] at h
      exact List.chain'_cons.mpr ⟨h.1, ih h.2⟩

theorem chain_sliceIsSorted {α : Type} (less : α → α → Bool) (l : List α)
    (h : List.Chain' (fun a b => less b a = false) l) : SliceIsSorted less l = true := by
  induction l with
  | nil => rfl
  | cons a l ih =>
    cases l with
    | nil => rfl
    | cons b l =>
      rw [List.chain'_cons] at h
      simp only [SliceIsSorted, Bool.and_eq_true, Bool.not_eq_true']
      exact ⟨h.1, ih h.2⟩

theorem insertionSort_sliceIsSorted {α : Type} (less : α → α → Bool) (l : List α)
    (hw : StrictWeak less) :
    SliceIsSorted less (l.insertionSort (fun a b => less b a = false)) = true := by
  obtain ⟨hirr, htr, hntr⟩ := hw
  haveI : IsTotal α (fun a b => less b a = false) := ⟨by
    intro a b
    by_contra hcon
    push_neg at hcon
    have h1 : less b a = true := by simpa using hcon.1
    have h2 : less a b = true := by simpa using hcon.2
    have h3 := htr a b a h2 h1
    rw [hirr a] at h3
    exact Bool.false_ne_true h3⟩
  haveI : IsTrans α (fun a b => less b a = false) := ⟨by
    intro a b c hab hbc
    exact hntr c b a hbc hab⟩
  apply chain_sliceIsSorted
  exact List.Pairwise.chain' (List.sorted_insertionSort (fun a b => less b a = false) l)

theorem insertionRuntime_lawful : insertionRuntime.Lawful := by
  refine ⟨fun m => List.Perm.refl _, fun less l => ?_, fun less l hw => ?_⟩
  · exact List.perm_insertionSort _ l
  · exact insertionSort_sliceIsSorted less l hw

theorem reverseRuntime_lawful : reverseRuntime.Lawful := by
  refine ⟨fun m => List.reverse_perm _, fun less l => ?_, fun less l hw => ?_⟩
  · exact List.perm_insertionSort _ l
  · exact insertionSort_sliceIsSorted less l hw

/-- A slice sorted by `hostLess` has its keys in ascending order pairwise. -/
theorem sorted_pairwise (l : List HostToAppsDetail) (h : SliceIsSorted hostLess l = true) :
    l.Pairwise (fun x y => bytesCompare (ParseIP x.Host) (ParseIP y.Host) ≤ 0) := by
  have hc := sliceIsSorted_chain hostLess l h
  have hc2 : List.Chain' (fun x y => bytesCompare (ParseIP x.Host) (ParseIP y.Host) ≤ 0) l :=
    hc.imp (fun a b hab => (hostLess_false_iff a b).mp hab)
  haveI : IsTrans HostToAppsDetail
      (fun x y => bytesCompare (ParseIP x.Host) (ParseIP y.Host) ≤ 0) :=
    ⟨fun a b c hab hbc => bytesCompare_trans_le hab hbc⟩
  exact List.chain'_iff_pairwise.mp hc2

/-! ## The aggregation map -/

theorem find_store (m : HostMap) (h : String) (d : HostToAppsDetail) (k : String) :
    (m.store h d).find k = if h = k then some d else m.find k := by
  induction m with
  | nil => simp [HostMap.store, HostMap.find]
  | cons p m ih =>
    obtain ⟨k0, d0⟩ := p
    by_cases h1 : k0 = h
    · subst h1
      by_cases h2 : k0 = k
      · simp [HostMap.store, HostMap.find, h2]
      · simp [HostMap.store, HostMap.find, h2]
    · by_cases h2 : h = k
      · subst h2
        simp [HostMap.store, HostMap.find, h1, ih]
      · simp [HostMap.store, HostMap.find, h1, h2, ih]

theorem find_eq_none_iff (m : HostMap) (k : String) :
    m.find k = none ↔ k ∉ m.map Prod.fst := by
  induction m with
  | nil => simp [HostMap.find]
  | cons p m ih =>
    obtain ⟨k0, d0⟩ := p
    by_cases h1 : k0 = k
    · simp [HostMap.find, h1]
    · have h2 : ¬ k = k0 := fun h => h1 h.symm
      simp [HostMap.find, h1, h2, ih]

theorem find_some_mem (m : HostMap) (k : String) (d : HostToAppsDetail)
    (h : m.find k = some d) : (k, d) ∈ m := by
  induction m with
  | nil => simp [HostMap.find] at h
  | cons p m ih =>
    obtain ⟨k0, d0⟩ := p
    by_cases h1 : k0 = k
    · simp only [HostMap.find, h1, if_true, Option.some.injEq] at h
      simp [h1, h]
    · simp only [HostMap.find, h1, if_false] at h
      exact List.mem_cons_of_mem _ (ih h)

theorem mem_find_of_nodup (m : HostMap) (k : String) (d : HostToAppsDetail)
    (hn : (m.map Prod.fst).Nodup) (h : (k, d) ∈ m) : m.find k = some d := by
  induction m with
  | nil => simp at h
  | cons p m ih =>
    obtain ⟨k0, d0⟩ := p
    rw [List.map_cons, List.nodup_cons] at hn
    rcases List.mem_cons.mp h with heq | hmem
    · cases heq
      simp [HostMap.find]
    · have h1 : k0 ≠ k := by
        rintro rfl
        exact hn.1 (List.mem_map.mpr ⟨(k0, d), hmem, rfl⟩)
      simp only [HostMap.find, h1, if_false]
      exact ih hn.2 hmem

theorem keys_store (m : HostMap) (h : String) (d : HostToAppsDetail) :
    (m.store h d).map Prod.fst =
      if h ∈ m.map Prod.fst then m.map Prod.fst else m.map Prod.fst ++ [h] := by
  induction m with
  | nil => simp [HostMap.store]
  | cons p m ih =>
    obtain ⟨k0, d0⟩ := p
    by_cases h1 : k0 = h
    · subst h1
      simp [HostMap.store]
    · have h2 : ¬ h = k0 := fun e => h1 e.symm
      simp only [HostMap.store, h1, if_false, List.map_cons, ih, List.mem_cons, h2, false_or]
      split_ifs <;> simp

theorem sum_store (m : HostMap) (h : String) (d : HostToAppsDetail) :
    ((m.store h d).map (fun p => p.2.Apps.length)).sum +
        (match m.find h with
          | some d0 => d0.Apps.length
          | none => 0) =
      (m.map (fun p => p.2.Apps.length)).sum + d.Apps.length := by
  induction m with
  | nil => simp [HostMap.store, HostMap.find]
  | cons p m ih =>
    obtain ⟨k0, d0⟩ := p
    by_cases h1 : k0 = h
    · subst h1
      simp [HostMap.store, HostMap.find]
      omega
    · simp only [HostMap.store, h1, if_false, HostMap.find, List.map_cons, List.sum_cons]
      omega

theorem appsAt_append (recs : List (String × String)) (h n k : String) :
    appsAt (recs ++ [(h, n)]) k = if h = k then appsAt recs k ++ [n] else appsAt recs k := by
  unfold appsAt
  by_cases h1 : h = k
  · simp [List.filter_append, h1]
  · simp [List.filter_append, h1]

theorem aggregated_nil : Aggregated [] [] := by
  refine ⟨List.nodup_nil, fun k => ?_, rfl⟩
  simp [HostMap.find, appsAt]

theorem aggregated_recordStat (recs : List (String × String)) (m : HostMap) (n : String)
    (s : ProcessStat) (hm : Aggregated recs m) :
    Aggregated (recs ++ [(s.Host, n)]) (recordStat n m s) := by
  obtain ⟨hnd, hfind, hsum⟩ := hm
  have hs := hfind s.Host
  unfold recordStat
  cases hf : m.find s.Host with
  | none =>
    have hnot : s.Host ∉ m.map Prod.fst := (find_eq_none_iff m s.Host).mp hf
    have hempty : appsAt recs s.Host = [] := by
      rw [hf] at hs
      by_contra hne
      rw [if_neg hne] at hs
      exact Option.noConfusion hs
    refine ⟨?_, fun k => ?_, ?_⟩
    · simp only [keys_store, if_neg hnot]
      exact List.Nodup.append hnd (List.nodup_singleton _) (by simpa using hnot)
    · simp only [find_store, appsAt_append]
      by_cases h1 : s.Host = k
      · subst h1
        simp [hempty]
      · simp only [h1, if_false]
        exact hfind k
    · have h := sum_store m s.Host { Host := s.Host, Apps := [] ++ [n] }
      rw [hf] at h
      simp only [List.nil_append, List.length_singleton, add_zero] at h
      simp only [List.nil_append, List.length_append, List.length_singleton, h, hsum]
  | some d =>
    have hin : s.Host ∈ m.map Prod.fst := by
      by_contra hnot
      rw [(find_eq_none_iff m s.Host).mpr hnot] at hf
      exact Option.noConfusion hf
    have hne : appsAt recs s.Host ≠ [] := by
      intro he
      rw [hf, if_pos he] at hs
      exact Option.noConfusion hs
    have hd : d = ⟨s.Host, appsAt recs s.Host⟩ := by
      rw [hf, if_neg hne] at hs
      exact Option.some.inj hs
    refine ⟨?_, fun k => ?_, ?_⟩
    · simp only [keys_store, if_pos hin]
      exact hnd
    · simp only [find_store, appsAt_append]
      by_cases h1 : s.Host = k
      · subst h1
        simp [hd]
      · simp only [h1, if_false]
        exact hfind k
    · have h := sum_store m s.Host { d with Apps := d.Apps ++ [n] }
      rw [hf] at h
      simp only [List.length_append, List.length_singleton] at h ⊢
      omega

theorem aggregated_foldl (n : String) (stats : List ProcessStat)
    (recs : List (String × String)) (m : HostMap) (hm : Aggregated recs m) :
    Aggregated (recs ++ stats.map (fun s => (s.Host, n))) (stats.foldl (recordStat n) m) := by
  induction stats generalizing recs m with
  | nil => simpa using hm
  | cons s stats ih =>
    have h := ih (recs ++ [(s.Host, n)]) (recordStat n m s) (aggregated_recordStat recs m n s hm)
    simpa [List.append_assoc] using h

/-! ## The loops of `listApps` -/

theorem forApps_failFast (cf : Client) (apps : List App) (m : HostMap) (calls : List CallRecord)
    (h : ∀ x ∈ calls, x.err = none) :
    FailFast (forApps cf apps m calls).1 (forApps cf apps m calls).2.2 := by
  induction apps generalizing m calls with
  | nil => simpa [forApps, FailFast] using h
  | cons app apps ih =>
    simp only [forApps, listProcessStats]
    cases hst : cf.GetStatsForApp app.GUID with
    | error err =>
      simp only [FailFast]
      exact ⟨calls, .GetStatsForApp app.GUID, rfl, h⟩
    | ok stats =>
      simp only
      apply ih
      intro x hx
      rcases List.mem_append.mp hx with hx | hx
      · exact h x hx
      · rw [List.mem_singleton] at hx
        rw [hx]

theorem pagesRun_failFast (cf : Client) (pages : List (Except GoError (List App))) (page : Nat)
    (m : HostMap) (calls : List CallRecord) (h : ∀ x ∈ calls, x.err = none) :
    FailFast (pagesRun cf pages page m calls).1 (pagesRun cf pages page m calls).2.2 := by
  induction pages generalizing page m calls with
  | nil => simpa [pagesRun, FailFast] using h
  | cons p pages ih =>
    cases p with
    | error err =>
      simp only [pagesRun, FailFast]
      exact ⟨calls, .ApplicationsList page, rfl, h⟩
    | ok apps =>
      have hcalls : ∀ x ∈ calls ++ [⟨.ApplicationsList page, none⟩], x.err = none := by
        intro x hx
        rcases List.mem_append.mp hx with hx | hx
        · exact h x hx
        · rw [List.mem_singleton] at hx
          rw [hx]
      have hff := forApps_failFast cf apps m _ hcalls
      rcases hfa : forApps cf apps m (calls ++ [⟨.ApplicationsList page, none⟩]) with
        ⟨err1, m1, calls1⟩
      rw [hfa] at hff
      simp only [pagesRun, hfa]
      cases err1 with
      | some e => exact hff
      | none =>
        simp only
        exact ih (page + 1) m1 calls1 hff

theorem forApps_success (cf : Client) (apps : List App) (recs : List (String × String))
    (m : HostMap) (calls : List CallRecord) (m1 : HostMap) (calls1 : List CallRecord)
    (h : forApps cf apps m calls = (none, m1, calls1)) (hm : Aggregated recs m) :
    Aggregated (recs ++ placementsOf cf apps) m1 ∧
      calls1 = calls ++ apps.map (fun app => ⟨.GetStatsForApp app.GUID, none⟩) ∧
      ∀ app ∈ apps, ∃ stats, cf.stats app.GUID = .ok stats := by
  induction apps generalizing recs m calls with
  | nil =>
    simp only [forApps, Prod.mk.injEq, true_and] at h
    obtain ⟨rfl, rfl⟩ := h
    simpa [placementsOf] using hm
  | cons app apps ih =>
    simp only [forApps, listProcessStats] at h
    cases hst : cf.GetStatsForApp app.GUID with
    | error err =>
      rw [hst] at h
      simp at h
    | ok stats =>
      rw [hst] at h
      simp only at h
      have hst2 : cf.stats app.GUID = .ok stats := hst
      have hinst : instancesOf cf app = stats := by simp [instancesOf, hst2]
      have hm2 := aggregated_foldl app.Name stats recs m hm
      obtain ⟨ha, hc, hs⟩ := ih _ _ _ h hm2
      refine ⟨?_, ?_, ?_⟩
      · simpa [placementsOf, hinst, List.append_assoc] using ha
      · simpa [List.append_assoc] using hc
      · intro a ha2
        rcases List.mem_cons.mp ha2 with rfl | ha3
        · exact ⟨stats, hst2⟩
        · exact hs a ha3

theorem pagesRun_success (cf : Client) (pages : List (Except GoError (List App))) (page : Nat)
    (recs : List (String × String)) (m : HostMap) (calls : List CallRecord) (m1 : HostMap)
    (calls1 : List CallRecord) (h : pagesRun cf pages page m calls = (none, m1, calls1))
    (hm : Aggregated recs m) :
    ∃ ps : List (List App), pages = ps.map Except.ok ∧
      Aggregated (recs ++ placementsOf cf ps.flatten) m1 ∧
      calls1 = calls ++ pagesCalls page ps ∧
      ∀ app ∈ ps.flatten, ∃ stats, cf.stats app.GUID = .ok stats := by
  induction pages generalizing page recs m calls with
  | nil =>
    simp only [pagesRun, Prod.mk.injEq, true_and] at h
    obtain ⟨rfl, rfl⟩ := h
    exact ⟨[], rfl, by simpa [placementsOf] using hm, by simp [pagesCalls], by simp⟩
  | cons p pages ih =>
    cases p with
    | error err => simp [pagesRun] at h
    | ok apps =>
      simp only [pagesRun] at h
      rcases hfa : forApps cf apps m (calls ++ [⟨.ApplicationsList page, none⟩]) with
        ⟨err1, m2, calls2⟩
      rw [hfa] at h
      cases err1 with
      | some e => simp at h
      | none =>
        simp only at h
        obtain ⟨ha, hc, hs⟩ := forApps_success cf apps recs m _ m2 calls2 hfa hm
        obtain ⟨ps, hps, ha2, hc2, hs2⟩ := ih (page + 1) _ m2 calls2 h ha
        refine ⟨apps :: ps, by simp [hps], ?_, ?_, ?_⟩
        · have hpl : placementsOf cf (apps :: ps).flatten =
              placementsOf cf apps ++ placementsOf cf ps.flatten := by
            simp [placementsOf, List.flatMap_append]
          rw [hpl, ← List.append_assoc]
          exact ha2
        · rw [hc2, hc]
          simp [pagesCalls, pageCalls, List.append_assoc]
        · intro a ha3
          rw [List.flatten_cons, List.mem_append] at ha3
          rcases ha3 with ha3 | ha3
          · exact hs a ha3
          · exact hs2 a ha3

theorem forPages_eq (cf : Client) (fuel opts : Nat) (m : HostMap) (calls : List CallRecord)
    (h1 : opts < cf.pages.length) (h2 : cf.pages.length - opts ≤ fuel) :
    forPages cf fuel opts m calls = some (pagesRun cf (cf.pages.drop opts) opts m calls) := by
  induction fuel generalizing opts m calls with
  | zero => omega
  | succ fuel ih =>
    have hget : cf.pages.get? opts = some (cf.pages.get ⟨opts, h1⟩) := List.get?_eq_get h1
    have hdrop : cf.pages.drop opts = cf.pages.get ⟨opts, h1⟩ :: cf.pages.drop (opts + 1) := by
      exact List.drop_eq_getElem_cons h1
    rw [hdrop]
    simp only [forPages, Client.ApplicationsList, hget]
    cases cf.pages.get ⟨opts, h1⟩ with
    | error err => simp [pagesRun]
    | ok apps =>
      simp only [pagesRun]
      generalize forApps cf apps m (calls ++ [⟨.ApplicationsList opts, none⟩]) = res
      obtain ⟨err1, m2, calls2⟩ := res
      cases err1 with
      | some e => rfl
      | none =>
        simp only
        by_cases h3 : opts + 1 < cf.pages.length
        · simp only [h3, decide_True, Bool.not_true, Bool.false_eq_true, if_false]
          exact ih (opts + 1) m2 calls2 h3 (by omega)
        · have hnil : cf.pages.drop (opts + 1) = [] := List.drop_eq_nil_of_le (by omega)
          simp [h3, hnil, pagesRun]

theorem forPages_listApps (cf : Client) (m : HostMap) (calls : List CallRecord) :
    forPages cf (cf.pages.length + 1) 0 m calls =
      some (pagesRun cf (effectivePages cf) 0 m calls) := by
  cases hp : cf.pages with
  | nil =>
    simp [forPages, Client.ApplicationsList, hp, effectivePages, pagesRun, forApps]
  | cons p ps =>
    have h := forPages_eq cf (cf.pages.length + 1) 0 m calls (by simp [hp]) (by omega)
    rw [List.drop_zero] at h
    rw [hp] at h
    simp only [effectivePages, hp]
    exact h

/-! ## What `listApps` returns -/

theorem listApps_cases (rt : Runtime) (cf : Client) :
    (∃ e m calls, pagesRun cf (effectivePages cf) 0 [] [] = (some e, m, calls) ∧
        listApps rt cf = some ⟨[], some e, calls⟩) ∨
      (∃ calls, pagesRun cf (effectivePages cf) 0 [] [] = (none, aggregate cf, calls) ∧
        listApps rt cf =
          some ⟨rt.sortSlice hostLess ((rt.mapRange (aggregate cf)).map sortApps), none, calls⟩) := by
  unfold listApps aggregate
  rw [forPages_listApps]
  rcases hrun : pagesRun cf (effectivePages cf) 0 [] [] with ⟨err, m, calls⟩
  cases err with
  | some e => exact Or.inl ⟨e, m, calls, rfl, rfl⟩
  | none => exact Or.inr ⟨calls, rfl, rfl⟩

theorem listedApps_of_effective (cf : Client) (ps : List (List App))
    (h : effectivePages cf = ps.map Except.ok) : listedApps cf = ps.flatten := by
  unfold effectivePages at h
  unfold listedApps
  cases hp : cf.pages with
  | nil =>
    rw [hp] at h
    simp only at h
    cases ps with
    | nil => simp at h
    | cons q qs =>
      simp only [List.map_cons, List.cons.injEq, Except.ok.injEq] at h
      obtain ⟨rfl, hqs⟩ := h
      have : qs = [] := by
        cases qs with
        | nil => rfl
        | cons _ _ => simp at hqs
      simp [this]
  | cons p ps0 =>
    rw [hp] at h
    simp only at h
    rw [h]
    clear h hp
    induction ps with
    | nil => simp
    | cons q qs ih => simp [List.flatMap_cons, ih]

theorem pages_of_effective (cf : Client) (ps : List (List App))
    (h : effectivePages cf = ps.map Except.ok) :
    (cf.pages = [] ∧ ps = [[]]) ∨ (cf.pages ≠ [] ∧ cf.pages = ps.map Except.ok) := by
  unfold effectivePages at h
  cases hp : cf.pages with
  | nil =>
    rw [hp] at h
    simp only at h
    left
    refine ⟨rfl, ?_⟩
    cases ps with
    | nil => simp at h
    | cons q qs =>
      simp only [List.map_cons, List.cons.injEq, Except.ok.injEq] at h
      obtain ⟨rfl, hqs⟩ := h
      cases qs with
      | nil => rfl
      | cons _ _ => simp at hqs
  | cons p ps0 =>
    rw [hp] at h
    simp only at h
    right
    exact ⟨by simp, h⟩

/-- The run of the page loop when `listApps` succeeds. -/
theorem listApps_success (rt : Runtime) (cf : Client) (hl : rt.Lawful) :
    ∃ r, listApps rt cf = some r ∧
      (r.err = none →
        Aggregated (placements cf) (aggregate cf) ∧
        (∃ ps : List (List App), effectivePages cf = ps.map Except.ok ∧
          r.calls = pagesCalls 0 ps) ∧
        r.results.Perm (((aggregate cf).map Prod.snd).map sortApps) ∧
        r.results.Pairwise
          (fun x y => bytesCompare (ParseIP x.Host) (ParseIP y.Host) ≤ 0) ∧
        ∀ app ∈ listedApps cf, ∃ stats, cf.stats app.GUID = .ok stats) := by
  rcases listApps_cases rt cf with ⟨e, m, calls, _, hr⟩ | ⟨calls, hrun, hr⟩
  · exact ⟨_, hr, fun h => by simp at h⟩
  · refine ⟨_, hr, fun _ => ?_⟩
    obtain ⟨ps, hps, hagg, hcalls, hstats⟩ :=
      pagesRun_success cf _ 0 [] [] [] _ _ hrun aggregated_nil
    have hlisted := listedApps_of_effective cf ps hps
    obtain ⟨hrange, hperm, hsorted⟩ := hl
    refine ⟨?_, ⟨ps, hps, by simpa using hcalls⟩, ?_, ?_, ?_⟩
    · simpa [placements, placementsOf, hlisted] using hagg
    · exact (hperm _ _).trans ((hrange _).map _)
    · exact sorted_pairwise _ (hsorted _ _ hostLess_strictWeak)
    · rw [hlisted]
      exact hstats

/-! ## The entries of the report -/

theorem appsAt_eq_nil_iff (recs : List (String × String)) (k : String) :
    appsAt recs k = [] ↔ k ∉ recs.map Prod.fst := by
  unfold appsAt
  rw [List.map_eq_nil_iff, List.filter_eq_nil_iff]
  constructor
  · intro h hk
    obtain ⟨p, hp, hpk⟩ := List.mem_map.mp hk
    exact h p hp (by simpa using hpk)
  · intro h p hp hpk
    exact h (List.mem_map.mpr ⟨p, hp, by simpa using hpk⟩)

theorem aggregated_mem (recs : List (String × String)) (m : HostMap) (hm : Aggregated recs m)
    (k : String) (d : HostToAppsDetail) :
    (k, d) ∈ m ↔ k ∈ recs.map Prod.fst ∧ d = ⟨k, appsAt recs k⟩ := by
  obtain ⟨hnd, hfind, _⟩ := hm
  have hk := hfind k
  constructor
  · intro h
    have hf := mem_find_of_nodup m k d hnd h
    rw [hf] at hk
    by_cases he : appsAt recs k = []
    · rw [if_pos he] at hk
      exact Option.noConfusion hk
    · rw [if_neg he] at hk
      refine ⟨?_, Option.some.inj hk⟩
      by_contra hnot
      exact he ((appsAt_eq_nil_iff recs k).mpr hnot)
  · rintro ⟨hin, rfl⟩
    have he : appsAt recs k ≠ [] := fun he => (appsAt_eq_nil_iff recs k).mp he hin
    rw [if_neg he] at hk
    exact find_some_mem m k _ hk

theorem sortStrings_perm (l : List String) : (sortStrings l).Perm l :=
  List.perm_insertionSort _ l

theorem sortStrings_sorted (l : List String) : (sortStrings l).Sorted (fun a b => a ≤ b) := by
  have h : (sortStrings l).Sorted (fun a b : String => a.toList ≤ b.toList) := by
    haveI : IsTotal String (fun a b : String => a.toList ≤ b.toList) :=
      ⟨fun a b => le_total a.toList b.toList⟩
    haveI : IsTrans String (fun a b : String => a.toList ≤ b.toList) :=
      ⟨fun a b c hab hbc => le_trans hab hbc⟩
    exact List.sorted_insertionSort _ l
  exact List.Pairwise.imp (fun hab => String.le_iff_toList_le.mpr hab) h

theorem report_mem (recs : List (String × String)) (m : HostMap) (l : List HostToAppsDetail)
    (hm : Aggregated recs m) (hp : l.Perm ((m.map Prod.snd).map sortApps))
    (e : HostToAppsDetail) :
    e ∈ l ↔ e.Host ∈ recs.map Prod.fst ∧ e.Apps = sortStrings (appsAt recs e.Host) := by
  rw [hp.mem_iff]
  constructor
  · intro h
    obtain ⟨d, hd, rfl⟩ := List.mem_map.mp h
    obtain ⟨⟨k, d2⟩, hkd, rfl⟩ := List.mem_map.mp hd
    obtain ⟨hk, rfl⟩ := (aggregated_mem recs m hm k d2).mp hkd
    exact ⟨hk, rfl⟩
  · rintro ⟨hk, ha⟩
    have hmem := (aggregated_mem recs m hm e.Host ⟨e.Host, appsAt recs e.Host⟩).mpr ⟨hk, rfl⟩
    refine List.mem_map.mpr ⟨⟨e.Host, appsAt recs e.Host⟩, ?_, ?_⟩
    · exact List.mem_map.mpr ⟨(e.Host, ⟨e.Host, appsAt recs e.Host⟩), hmem, rfl⟩
    · cases e
      simp only [sortApps] at ha ⊢
      rw [ha]

theorem report_hosts (recs : List (String × String)) (m : HostMap) (l : List HostToAppsDetail)
    (hm : Aggregated recs m) (hp : l.Perm ((m.map Prod.snd).map sortApps)) :
    (l.map (fun e => e.Host)).Perm (m.map Prod.fst) := by
  have h1 := hp.map (fun e => e.Host)
  refine h1.trans ?_
  rw [List.map_map, List.map_map]
  have : m.map (((fun e => e.Host) ∘ sortApps) ∘ Prod.snd) = m.map Prod.fst := by
    apply List.map_congr_left
    rintro ⟨k, d⟩ hkd
    obtain ⟨_, rfl⟩ := (aggregated_mem recs m hm k d).mp hkd
    rfl
  rw [this]

theorem report_nodup (recs : List (String × String)) (m : HostMap) (l : List HostToAppsDetail)
    (hm : Aggregated recs m) (hp : l.Perm ((m.map Prod.snd).map sortApps)) :
    (l.map (fun e => e.Host)).Nodup :=
  (report_hosts recs m l hm hp).nodup_iff.mpr hm.1

theorem report_sum (recs : List (String × String)) (m : HostMap) (l : List HostToAppsDetail)
    (hm : Aggregated recs m) (hp : l.Perm ((m.map Prod.snd).map sortApps)) :
    (l.map (fun e => e.Apps.length)).sum = recs.length := by
  have h1 := (hp.map (fun e => e.Apps.length)).sum_eq
  rw [h1, List.map_map, List.map_map, ← hm.2.2]
  congr 1
  apply List.map_congr_left
  rintro ⟨k, d⟩ _
  exact (sortStrings_perm d.Apps).length_eq

theorem mem_placements (cf : Client) (h n : String) :
    (h, n) ∈ placements cf ↔
      ∃ app ∈ listedApps cf, app.Name = n ∧ ∃ s ∈ instancesOf cf app, s.Host = h := by
  unfold placements
  simp only [List.mem_flatMap, List.mem_map, Prod.mk.injEq]
  constructor
  · rintro ⟨app, happ, s, hs, rfl, rfl⟩
    exact ⟨app, happ, rfl, s, hs, rfl⟩
  · rintro ⟨app, happ, rfl, s, hs, rfl⟩
    exact ⟨app, happ, s, hs, rfl, rfl⟩

theorem mem_placement_hosts (cf : Client) (h : String) :
    h ∈ (placements cf).map Prod.fst ↔
      ∃ app ∈ listedApps cf, ∃ s ∈ instancesOf cf app, s.Host = h := by
  constructor
  · intro hh
    obtain ⟨⟨h2, n⟩, hp, rfl⟩ := List.mem_map.mp hh
    obtain ⟨app, happ, _, s, hs, hsh⟩ := (mem_placements cf h2 n).mp hp
    exact ⟨app, happ, s, hs, hsh⟩
  · rintro ⟨app, happ, s, hs, hsh⟩
    exact List.mem_map.mpr
      ⟨(h, app.Name), (mem_placements cf h app.Name).mpr ⟨app, happ, rfl, s, hs, hsh⟩, rfl⟩

/-! ## The log of remote calls -/

theorem forApps_answers (cf : Client) (apps : List App) (m : HostMap) (calls : List CallRecord)
    (h : ∀ x ∈ calls, x.err = cf.answer x.call) :
    ∀ x ∈ (forApps cf apps m calls).2.2, x.err = cf.answer x.call := by
  induction apps generalizing m calls with
  | nil => simpa [forApps] using h
  | cons app apps ih =>
    simp only [forApps, listProcessStats]
    cases hst : cf.GetStatsForApp app.GUID with
    | error err =>
      intro x hx
      rcases List.mem_append.mp hx with hx | hx
      · exact h x hx
      · rw [List.mem_singleton] at hx
        rw [hx]
        simp [Client.answer, hst]
    | ok stats =>
      simp only
      apply ih
      intro x hx
      rcases List.mem_append.mp hx with hx | hx
      · exact h x hx
      · rw [List.mem_singleton] at hx
        rw [hx]
        simp [Client.answer, hst]

theorem forPages_answers (cf : Client) (fuel opts : Nat) (m : HostMap) (calls : List CallRecord)
    (res : Option GoError × HostMap × List CallRecord)
    (hres : forPages cf fuel opts m calls = some res)
    (h : ∀ x ∈ calls, x.err = cf.answer x.call) :
    ∀ x ∈ res.2.2, x.err = cf.answer x.call := by
  induction fuel generalizing opts m calls with
  | zero => simp [forPages] at hres
  | succ fuel ih =>
    simp only [forPages] at hres
    cases hl : cf.ApplicationsList opts with
    | error err =>
      rw [hl] at hres
      simp only [Option.some.injEq] at hres
      subst hres
      intro x hx
      rcases List.mem_append.mp hx with hx | hx
      · exact h x hx
      · rw [List.mem_singleton] at hx
        rw [hx]
        simp [Client.answer, hl]
    | ok v =>
      obtain ⟨apps, pager⟩ := v
      rw [hl] at hres
      simp only at hres
      have hcalls : ∀ x ∈ calls ++ [⟨.ApplicationsList opts, none⟩],
          x.err = cf.answer x.call := by
        intro x hx
        rcases List.mem_append.mp hx with hx | hx
        · exact h x hx
        · rw [List.mem_singleton] at hx
          rw [hx]
          simp [Client.answer, hl]
      have hfa := forApps_answers cf apps m _ hcalls
      generalize forApps cf apps m (calls ++ [⟨.ApplicationsList opts, none⟩]) = fa at hres hfa
      obtain ⟨err1, m2, calls2⟩ := fa
      cases err1 with
      | some e =>
        simp only [Option.some.injEq] at hres
        subst hres
        exact hfa
      | none =>
        simp only at hres
        by_cases hn : pager.HasNextPage = true
        · simp only [hn, Bool.not_true, Bool.false_eq_true, if_false] at hres
          exact ih _ _ _ hres hfa
        · simp only [hn, Bool.not_false, if_true, Option.some.injEq] at hres
          subst hres
          exact hfa

theorem listRequests_stats (apps : List App) :
    listRequests (apps.map (fun app => (⟨.GetStatsForApp app.GUID, none⟩ : CallRecord))) = [] := by
  induction apps with
  | nil => rfl
  | cons a apps ih =>
    simp only [listRequests, List.map_cons, List.filterMap_cons] at ih ⊢
    exact ih

theorem statsRequests_stats (apps : List App) :
    statsRequests (apps.map (fun app => (⟨.GetStatsForApp app.GUID, none⟩ : CallRecord))) =
      apps.map (fun app => app.GUID) := by
  induction apps with
  | nil => rfl
  | cons a apps ih =>
    simp only [statsRequests, List.map_cons, List.filterMap_cons] at ih ⊢
    rw [ih]

theorem listRequests_pagesCalls (page : Nat) (ps : List (List App)) :
    listRequests (pagesCalls page ps) = List.range' page ps.length := by
  induction ps generalizing page with
  | nil => rfl
  | cons apps ps ih =>
    have h1 : listRequests (pagesCalls page (apps :: ps)) =
        page :: (listRequests (apps.map
          (fun app => (⟨.GetStatsForApp app.GUID, none⟩ : CallRecord))) ++
          listRequests (pagesCalls (page + 1) ps)) := by
      simp [listRequests, pagesCalls, pageCalls, List.filterMap_append]
    rw [h1, listRequests_stats, ih, List.nil_append, List.length_cons, List.range'_succ]

theorem statsRequests_pagesCalls (page : Nat) (ps : List (List App)) :
    statsRequests (pagesCalls page ps) = ps.flatten.map (fun app => app.GUID) := by
  induction ps generalizing page with
  | nil => rfl
  | cons apps ps ih =>
    have h1 : statsRequests (pagesCalls page (apps :: ps)) =
        statsRequests (apps.map
          (fun app => (⟨.GetStatsForApp app.GUID, none⟩ : CallRecord))) ++
          statsRequests (pagesCalls (page + 1) ps) := by
      simp [statsRequests, pagesCalls, pageCalls, List.filterMap_append]
    rw [h1, statsRequests_stats, ih, List.flatten_cons, List.map_append]

/-! ## Failure is all or nothing -/

/-- C1: `listApps` always returns, its log records what the backend
answered, and as soon as one of its calls to `Applications.List` or
`GetStatsForApp` fails that call is the last one it makes, its error is the
error returned and the report returned is `nil`; a `nil` error is returned
only when every call made succeeded, and an error never comes with a
report. -/
theorem listApps_all_or_nothing (rt : Runtime) (cf : Client) :
    ∃ r, listApps rt cf = some r ∧
      (∀ x ∈ r.calls, x.err = cf.answer x.call) ∧
      ((∃ x ∈ r.calls, x.err ≠ none) →
        ∃ pre c e, r.calls = pre ++ [⟨c, some e⟩] ∧ (∀ x ∈ pre, x.err = none) ∧
          r.err = some e ∧ r.results = []) ∧
      (r.err = none → ∀ x ∈ r.calls, x.err = none) ∧
      (r.err ≠ none → r.results = []) := by
  have hff := pagesRun_failFast cf (effectivePages cf) 0 [] [] (by simp)
  have hans := forPages_answers cf _ 0 [] [] _ (forPages_listApps cf [] []) (by simp)
  rcases listApps_cases rt cf with ⟨e, m, calls, hrun, hr⟩ | ⟨calls, hrun, hr⟩
  · rw [hrun] at hff hans
    obtain ⟨pre, c, hcalls, hpre⟩ := hff
    refine ⟨_, hr, hans, fun _ => ⟨pre, c, e, hcalls, hpre, rfl, rfl⟩, fun h => ?_, fun _ => rfl⟩
    simp at h
  · rw [hrun] at hff hans
    refine ⟨_, hr, hans, ?_, fun _ => hff, fun h => ?_⟩
    · rintro ⟨x, hx, hne⟩
      exact absurd (hff x hx) hne
    · simp at h

/-- The run against `statsFailClient`: the second statistics request fails,
the third is never made, and the error comes with a `nil` report although
the map already held an entry. -/
theorem listApps_all_or_nothing_witness :
    ∃ r, listApps insertionRuntime statsFailClient = some r ∧
      r.calls = [⟨.ApplicationsList 0, none⟩, ⟨.GetStatsForApp "guid-a", none⟩,
        ⟨.GetStatsForApp "guid-b", some "transport error"⟩] ∧
      (∃ x ∈ r.calls, x.err ≠ none) ∧
      r.err = some "transport error" ∧ r.results = [] := by
  obtain ⟨r, hr, _, _, _, hnil⟩ := listApps_all_or_nothing insertionRuntime statsFailClient
  have hval : listApps insertionRuntime statsFailClient =
      some ⟨[], some "transport error",
        [⟨.ApplicationsList 0, none⟩, ⟨.GetStatsForApp "guid-a", none⟩,
          ⟨.GetStatsForApp "guid-b", some "transport error"⟩]⟩ := by decide
  have hr2 := hr
  rw [hval] at hr2
  cases hr2
  exact ⟨_, hr, rfl, ⟨⟨.GetStatsForApp "guid-b", some "transport error"⟩, by decide, by decide⟩,
    rfl, hnil (by decide)⟩

/-! ## Pagination -/

/-- C7, as the code has it: when no call fails, every page of the
catalogue succeeded; for a catalogue of `N ≥ 1` pages the calls are, page
after page in catalogue order, the request of the page followed by one
statistics request for each of its applications, so that pages `0` to
`N - 1` are requested once each; a catalogue without pages is still asked
once. In both cases there are `max N 1` page requests and one statistics
request for each listed application. -/
theorem listApps_requests (rt : Runtime) (cf : Client) :
    ∃ r, listApps rt cf = some r ∧
      ((∀ x ∈ r.calls, x.err = none) →
        ∃ ps : List (List App), cf.pages = ps.map Except.ok ∧
          (ps ≠ [] → r.calls = pagesCalls 0 ps) ∧
          (ps = [] → r.calls = [⟨.ApplicationsList 0, none⟩]) ∧
          listRequests r.calls = List.range (max ps.length 1) ∧
          statsRequests r.calls = ps.flatten.map (fun app => app.GUID)) := by
  have hff := pagesRun_failFast cf (effectivePages cf) 0 [] [] (by simp)
  rcases listApps_cases rt cf with ⟨e, m, calls, hrun, hr⟩ | ⟨calls, hrun, hr⟩
  · rw [hrun] at hff
    obtain ⟨pre, c, hcalls, _⟩ := hff
    refine ⟨_, hr, fun h => ?_⟩
    have hc : calls = pre ++ [⟨c, some e⟩] := hcalls
    have := h ⟨c, some e⟩ (by simp [hc])
    simp at this
  · refine ⟨_, hr, fun _ => ?_⟩
    obtain ⟨ps, hps, _, hcalls, _⟩ :=
      pagesRun_success cf _ 0 [] [] [] _ _ hrun aggregated_nil
    rw [List.nil_append] at hcalls
    rcases pages_of_effective cf ps hps with ⟨hnil, rfl⟩ | ⟨hne, hpages⟩
    · refine ⟨[], by simpa using hnil, fun h => absurd rfl h, fun _ => ?_, ?_, ?_⟩
      · simpa [pagesCalls, pageCalls] using hcalls
      · simp only [hcalls]
        rfl
      · simp only [hcalls]
        rfl
    · have hps_ne : ps ≠ [] := by
        rintro rfl
        exact hne (by simpa using hpages)
      have hlen : max ps.length 1 = ps.length := by
        have : 0 < ps.length := List.length_pos.mpr hps_ne
        omega
      refine ⟨ps, hpages, fun _ => hcalls, fun h => absurd h hps_ne, ?_, ?_⟩
      · simp only [hcalls]
        rw [listRequests_pagesCalls, hlen, List.range_eq_range']
      · simp only [hcalls]
        exact statsRequests_pagesCalls 0 ps

/-- The run against `mixedClient`, a catalogue of two pages: two page
requests, in order, each followed by the statistics requests of its
applications. -/
theorem listApps_requests_witness :
    ∃ r, listApps insertionRuntime mixedClient = some r ∧
      (∀ x ∈ r.calls, x.err = none) ∧
      r.calls = [⟨.ApplicationsList 0, none⟩, ⟨.GetStatsForApp "guid-a", none⟩,
        ⟨.ApplicationsList 1, none⟩, ⟨.GetStatsForApp "guid-b", none⟩,
        ⟨.GetStatsForApp "guid-c", none⟩] ∧
      listRequests r.calls = [0, 1] ∧
      statsRequests r.calls = ["guid-a", "guid-b", "guid-c"] := by
  obtain ⟨r, hr, h⟩ := listApps_requests insertionRuntime mixedClient
  have hval : listApps insertionRuntime mixedClient =
      some ⟨[⟨"cell-a", ["A"]⟩, ⟨"10.0.0.5", ["A", "C"]⟩], none,
        [⟨.ApplicationsList 0, none⟩, ⟨.GetStatsForApp "guid-a", none⟩,
          ⟨.ApplicationsList 1, none⟩, ⟨.GetStatsForApp "guid-b", none⟩,
          ⟨.GetStatsForApp "guid-c", none⟩]⟩ := by decide
  have hr2 := hr
  rw [hval] at hr2
  cases hr2
  have hok : ∀ x ∈ ([⟨.ApplicationsList 0, none⟩, ⟨.GetStatsForApp "guid-a", none⟩,
      ⟨.ApplicationsList 1, none⟩, ⟨.GetStatsForApp "guid-b", none⟩,
      ⟨.GetStatsForApp "guid-c", none⟩] : List CallRecord), x.err = none := by decide
  obtain ⟨ps, _, _, _, _, _⟩ := h hok
  exact ⟨_, hr, hok, rfl, by decide, by decide⟩

/-- C7 fails for a catalogue without pages (`N = 0`): nothing fails, and
`listApps` issues one `Applications.List` request, not none. -/
theorem listApps_requests_empty_catalogue :
    emptyClient.pages.length = 0 ∧
      listApps insertionRuntime emptyClient =
        some ⟨[], none, [⟨.ApplicationsList 0, none⟩]⟩ ∧
      (listRequests [⟨.ApplicationsList 0, none⟩]).length = 1 := by
  decide

/-! ## The order of the report -/

/-- C2, as the code has it: the report of a successful `listApps` is in
ascending order of parsed address bytes, not strictly: for adjacent entries
`e1`, `e2` the comparison `bytes.Compare(net.ParseIP(e1.Host),
net.ParseIP(e2.Host))` is at most 0, and it is below 0 unless both hosts
parse to the same bytes. -/
theorem listApps_ordered (rt : Runtime) (cf : Client) (hl : rt.Lawful) :
    ∃ r, listApps rt cf = some r ∧
      (r.err = none → ∀ (i : Nat) (e1 e2 : HostToAppsDetail),
        r.results[i]? = some e1 → r.results[i + 1]? = some e2 →
        bytesCompare (ParseIP e1.Host) (ParseIP e2.Host) ≤ 0 ∧
        (ParseIP e1.Host ≠ ParseIP e2.Host →
          bytesCompare (ParseIP e1.Host) (ParseIP e2.Host) < 0)) := by
  obtain ⟨r, hr, hs⟩ := listApps_success rt cf hl
  refine ⟨r, hr, fun he i e1 e2 h1 h2 => ?_⟩
  obtain ⟨_, _, _, hpw, _⟩ := hs he
  obtain ⟨hi, rfl⟩ := List.getElem?_eq_some.mp h1
  obtain ⟨hj, rfl⟩ := List.getElem?_eq_some.mp h2
  have hle := List.pairwise_iff_getElem.mp hpw i (i + 1) hi hj (Nat.lt_succ_self i)
  refine ⟨hle, fun hne => ?_⟩
  rcases lt_or_eq_of_le hle with hlt | heq
  · exact hlt
  · exact absurd (bytesCompare_eq_zero.mp heq) hne

/-- The report of the example of the specification is ordered. -/
theorem listApps_ordered_witness :
    insertionRuntime.Lawful ∧
      ∃ r, listApps insertionRuntime exampleClient = some r ∧ r.err = none ∧
        r.results = [⟨"10.0.0.2", ["B"]⟩, ⟨"10.0.0.5", ["A", "B"]⟩] ∧
        ∀ (i : Nat) (e1 e2 : HostToAppsDetail),
          r.results[i]? = some e1 → r.results[i + 1]? = some e2 →
          bytesCompare (ParseIP e1.Host) (ParseIP e2.Host) ≤ 0 ∧
          (ParseIP e1.Host ≠ ParseIP e2.Host →
            bytesCompare (ParseIP e1.Host) (ParseIP e2.Host) < 0) := by
  refine ⟨insertionRuntime_lawful, ?_⟩
  obtain ⟨r, hr, h⟩ := listApps_ordered insertionRuntime exampleClient insertionRuntime_lawful
  have hval : listApps insertionRuntime exampleClient =
      some ⟨[⟨"10.0.0.2", ["B"]⟩, ⟨"10.0.0.5", ["A", "B"]⟩], none,
        [⟨.ApplicationsList 0, none⟩, ⟨.GetStatsForApp "guid-a", none⟩,
          ⟨.GetStatsForApp "guid-b", none⟩]⟩ := by decide
  rw [hval] at hr
  cases hr
  exact ⟨_, hval, rfl, rfl, h rfl⟩

/-- C2 fails when two hosts do not parse as addresses: both entries are in
the report, next to each other, and their keys tie (the comparison is 0, not
below 0). -/
theorem listApps_order_not_strict :
    insertionRuntime.Lawful ∧
      listApps insertionRuntime tieClient =
        some ⟨[⟨"cell-a", ["A"]⟩, ⟨"cell-b", ["A"]⟩], none,
          [⟨.ApplicationsList 0, none⟩, ⟨.GetStatsForApp "guid-a", none⟩]⟩ ∧
      bytesCompare (ParseIP "cell-a") (ParseIP "cell-b") = 0 :=
  ⟨insertionRuntime_lawful, by decide, by decide⟩

/-- C3: in the report of a successful `listApps`, an entry whose host does
not parse as an address (`net.ParseIP` gives `nil`) has a smaller index than
any entry whose host parses. -/
theorem listApps_unparsable_first (rt : Runtime) (cf : Client) (hl : rt.Lawful) :
    ∃ r, listApps rt cf = some r ∧
      (r.err = none → ∀ (i j : Nat) (u v : HostToAppsDetail),
        r.results[i]? = some u → r.results[j]? = some v →
        ParseIP u.Host = [] → ParseIP v.Host ≠ [] → i < j) := by
  obtain ⟨r, hr, hs⟩ := listApps_success rt cf hl
  refine ⟨r, hr, fun he i j u v h1 h2 hu hv => ?_⟩
  obtain ⟨_, _, _, hpw, _⟩ := hs he
  obtain ⟨hi, rfl⟩ := List.getElem?_eq_some.mp h1
  obtain ⟨hj, rfl⟩ := List.getElem?_eq_some.mp h2
  by_contra hij
  rcases Nat.lt_or_ge j i with hlt | hge
  · have hle := List.pairwise_iff_getElem.mp hpw j i hj hi hlt
    rw [hu] at hle
    exact hv (bytesCompare_nil_right hle)
  · have hji : j = i := by omega
    subst hji
    exact hv hu

/-- In the report of `mixedClient` the host `cell-a` comes before the
address. -/
theorem listApps_unparsable_first_witness :
    insertionRuntime.Lawful ∧
      ∃ r, listApps insertionRuntime mixedClient = some r ∧ r.err = none ∧
        r.results = [⟨"cell-a", ["A"]⟩, ⟨"10.0.0.5", ["A", "C"]⟩] ∧
        ∀ (i j : Nat) (u v : HostToAppsDetail),
          r.results[i]? = some u → r.results[j]? = some v →
          ParseIP u.Host = [] → ParseIP v.Host ≠ [] → i < j := by
  refine ⟨insertionRuntime_lawful, ?_⟩
  obtain ⟨r, hr, h⟩ :=
    listApps_unparsable_first insertionRuntime mixedClient insertionRuntime_lawful
  have hval : listApps insertionRuntime mixedClient =
      some ⟨[⟨"cell-a", ["A"]⟩, ⟨"10.0.0.5", ["A", "C"]⟩], none,
        [⟨.ApplicationsList 0, none⟩, ⟨.GetStatsForApp "guid-a", none⟩,
          ⟨.ApplicationsList 1, none⟩, ⟨.GetStatsForApp "guid-b", none⟩,
          ⟨.GetStatsForApp "guid-c", none⟩]⟩ := by decide
  rw [hval] at hr
  cases hr
  exact ⟨_, hval, rfl, rfl, h rfl⟩

/-! ## Hosts and names of the report -/

theorem instancesOf_ok (cf : Client) (app : App) (stats : List ProcessStat)
    (h : cf.stats app.GUID = .ok stats) : cf.GetStatsForApp app.GUID = .ok (instancesOf cf app) := by
  simp [Client.GetStatsForApp, instancesOf, h]

/-- C6: the hosts of the report of a successful `listApps` are exactly the
hosts of the instance records of the listed applications (an application
without instances adds none), and no two entries have the same host. -/
theorem listApps_hosts (rt : Runtime) (cf : Client) (hl : rt.Lawful) :
    ∃ r, listApps rt cf = some r ∧
      (r.err = none →
        (∀ app ∈ listedApps cf, cf.GetStatsForApp app.GUID = .ok (instancesOf cf app)) ∧
        (∀ h, h ∈ r.results.map (fun e => e.Host) ↔
          ∃ app ∈ listedApps cf, ∃ s ∈ instancesOf cf app, s.Host = h) ∧
        (r.results.map (fun e => e.Host)).Nodup) := by
  obtain ⟨r, hr, hs⟩ := listApps_success rt cf hl
  refine ⟨r, hr, fun he => ?_⟩
  obtain ⟨hagg, _, hperm, _, hstats⟩ := hs he
  refine ⟨fun app happ => ?_, fun h => ?_, report_nodup _ _ _ hagg hperm⟩
  · obtain ⟨stats, hst⟩ := hstats app happ
    exact instancesOf_ok cf app stats hst
  · rw [← mem_placement_hosts]
    constructor
    · intro hh
      obtain ⟨e, hmem, rfl⟩ := List.mem_map.mp hh
      exact ((report_mem _ _ _ hagg hperm e).mp hmem).1
    · intro hh
      exact List.mem_map.mpr
        ⟨⟨h, sortStrings (appsAt (placements cf) h)⟩,
          (report_mem _ _ _ hagg hperm _).mpr ⟨hh, rfl⟩, rfl⟩

/-- The report of `mixedClient` has the two hosts of its instance records,
once each; application B, without instances, adds no entry. -/
theorem listApps_hosts_witness :
    insertionRuntime.Lawful ∧
      ∃ r, listApps insertionRuntime mixedClient = some r ∧ r.err = none ∧
        r.results.map (fun e => e.Host) = ["cell-a", "10.0.0.5"] ∧
        (∀ h, h ∈ r.results.map (fun e => e.Host) ↔
          ∃ app ∈ listedApps mixedClient, ∃ s ∈ instancesOf mixedClient app, s.Host = h) ∧
        (r.results.map (fun e => e.Host)).Nodup := by
  refine ⟨insertionRuntime_lawful, ?_⟩
  obtain ⟨r, hr, h⟩ := listApps_hosts insertionRuntime mixedClient insertionRuntime_lawful
  have hval : listApps insertionRuntime mixedClient =
      some ⟨[⟨"cell-a", ["A"]⟩, ⟨"10.0.0.5", ["A", "C"]⟩], none,
        [⟨.ApplicationsList 0, none⟩, ⟨.GetStatsForApp "guid-a", none⟩,
          ⟨.ApplicationsList 1, none⟩, ⟨.GetStatsForApp "guid-b", none⟩,
          ⟨.GetStatsForApp "guid-c", none⟩]⟩ := by decide
  rw [hval] at hr
  cases hr
  exact ⟨_, hval, rfl, rfl, (h rfl).2⟩

theorem appsAt_append_list (x y : List (String × String)) (k : String) :
    appsAt (x ++ y) k = appsAt x k ++ appsAt y k := by
  simp [appsAt, List.filter_append]

theorem count_appsAt_instances (inst : List ProcessStat) (name n h : String) :
    (appsAt (inst.map (fun s => (s.Host, name))) h).count n =
      if name = n then inst.countP (fun s => s.Host = h) else 0 := by
  induction inst with
  | nil => simp [appsAt]
  | cons s inst ih =>
    have hcons : appsAt ((s :: inst).map (fun s => (s.Host, name))) h =
        (if s.Host = h then [name] else []) ++
          appsAt (inst.map (fun s => (s.Host, name))) h := by
      by_cases hs : s.Host = h
      · simp [appsAt, List.filter_cons, hs]
      · simp [appsAt, List.filter_cons, hs]
    rw [hcons, List.count_append, ih]
    by_cases hn : name = n
    · by_cases hs : s.Host = h
      · simp [hn, hs, List.countP_cons]
        omega
      · simp [hn, hs, List.countP_cons]
    · by_cases hs : s.Host = h
      · simp [hn, hs, List.count_cons]
      · simp [hn, hs]

theorem count_appsAt_placementsOf (cf : Client) (apps : List App) (n h : String) :
    (appsAt (placementsOf cf apps) h).count n =
      ((apps.filter (fun a => a.Name = n)).map
        (fun a => (instancesOf cf a).countP (fun s => s.Host = h))).sum := by
  induction apps with
  | nil => simp [placementsOf, appsAt]
  | cons a apps ih =>
    have hcons : placementsOf cf (a :: apps) =
        (instancesOf cf a).map (fun s => (s.Host, a.Name)) ++ placementsOf cf apps := by
      simp [placementsOf, List.flatMap_cons]
    rw [hcons, appsAt_append_list, List.count_append, ih, count_appsAt_instances]
    by_cases hn : a.Name = n
    · simp [List.filter_cons, hn]
    · simp [List.filter_cons, hn]

theorem length_placementsOf (cf : Client) (apps : List App) :
    (placementsOf cf apps).length = (apps.map (fun a => (instancesOf cf a).length)).sum := by
  induction apps with
  | nil => simp [placementsOf]
  | cons a apps ih =>
    have hcons : placementsOf cf (a :: apps) =
        (instancesOf cf a).map (fun s => (s.Host, a.Name)) ++ placementsOf cf apps := by
      simp [placementsOf, List.flatMap_cons]
    rw [hcons, List.length_append, ih]
    simp

/-- C4: in the report of a successful `listApps`, a name `n` occurs in the
entry of a host as many times as the applications named `n` have instance
records on that host; a host without entry has no instance record; and the
lengths of all `Apps` lists add up to the number of instance records. -/
theorem listApps_counts (rt : Runtime) (cf : Client) (hl : rt.Lawful) :
    ∃ r, listApps rt cf = some r ∧
      (r.err = none →
        (∀ app ∈ listedApps cf, cf.GetStatsForApp app.GUID = .ok (instancesOf cf app)) ∧
        (∀ e ∈ r.results, ∀ n, e.Apps.count n =
          (((listedApps cf).filter (fun a => a.Name = n)).map
            (fun a => (instancesOf cf a).countP (fun s => s.Host = e.Host))).sum) ∧
        (∀ h, (∀ e ∈ r.results, e.Host ≠ h) →
          ∀ app ∈ listedApps cf, (instancesOf cf app).countP (fun s => s.Host = h) = 0) ∧
        (r.results.map (fun e => e.Apps.length)).sum =
          ((listedApps cf).map (fun a => (instancesOf cf a).length)).sum) := by
  obtain ⟨r, hr, hs⟩ := listApps_success rt cf hl
  refine ⟨r, hr, fun he => ?_⟩
  obtain ⟨hagg, _, hperm, _, hstats⟩ := hs he
  refine ⟨fun app happ => ?_, fun e hmem n => ?_, fun h hno app happ => ?_, ?_⟩
  · obtain ⟨stats, hst⟩ := hstats app happ
    exact instancesOf_ok cf app stats hst
  · have ha := ((report_mem _ _ _ hagg hperm e).mp hmem).2
    rw [ha, (sortStrings_perm _).count_eq]
    exact count_appsAt_placementsOf cf (listedApps cf) n e.Host
  · rw [List.countP_eq_zero]
    intro s hs hsh
    have hsh2 : s.Host = h := by simpa using hsh
    have hh : h ∈ (placements cf).map Prod.fst :=
      (mem_placement_hosts cf h).mpr ⟨app, happ, s, hs, hsh2⟩
    have hmem := (report_mem _ _ _ hagg hperm
      ⟨h, sortStrings (appsAt (placements cf) h)⟩).mpr ⟨hh, rfl⟩
    exact hno _ hmem rfl
  · rw [report_sum _ _ _ hagg hperm]
    exact length_placementsOf cf (listedApps cf)

/-- The report of `duplicateClient` names A three times for its one host. -/
theorem listApps_counts_witness :
    insertionRuntime.Lawful ∧
      ∃ r, listApps insertionRuntime duplicateClient = some r ∧ r.err = none ∧
        r.results = [⟨"10.0.0.5", ["A", "A", "A"]⟩] ∧
        (∀ e ∈ r.results, ∀ n, e.Apps.count n =
          (((listedApps duplicateClient).filter (fun a => a.Name = n)).map
            (fun a => (instancesOf duplicateClient a).countP (fun s => s.Host = e.Host))).sum) ∧
        (r.results.map (fun e => e.Apps.length)).sum =
          ((listedApps duplicateClient).map
            (fun a => (instancesOf duplicateClient a).length)).sum := by
  refine ⟨insertionRuntime_lawful, ?_⟩
  obtain ⟨r, hr, h⟩ := listApps_counts insertionRuntime duplicateClient insertionRuntime_lawful
  have hval : listApps insertionRuntime duplicateClient =
      some ⟨[⟨"10.0.0.5", ["A", "A", "A"]⟩], none,
        [⟨.ApplicationsList 0, none⟩, ⟨.GetStatsForApp "guid-1", none⟩,
          ⟨.GetStatsForApp "guid-2", none⟩]⟩ := by decide
  rw [hval] at hr
  cases hr
  exact ⟨_, hval, rfl, rfl, (h rfl).2.1, (h rfl).2.2.2⟩

/-! ## Two runs against the same backend -/

theorem keys_eq_of_sorted_perm (l1 l2 : List HostToAppsDetail) (hp : l1.Perm l2)
    (hs1 : l1.Pairwise (fun x y => bytesCompare (ParseIP x.Host) (ParseIP y.Host) ≤ 0))
    (hs2 : l2.Pairwise (fun x y => bytesCompare (ParseIP x.Host) (ParseIP y.Host) ≤ 0)) :
    l1.map (fun e => ParseIP e.Host) = l2.map (fun e => ParseIP e.Host) := by
  haveI : IsAntisymm (List Nat) (fun a b => bytesCompare a b ≤ 0) := ⟨by
    intro a b hab hba
    rw [bytesCompare_swap] at hba
    exact bytesCompare_eq_zero.mp (by omega)⟩
  have hk1 : (l1.map (fun e => ParseIP e.Host)).Sorted (fun a b => bytesCompare a b ≤ 0) :=
    List.pairwise_map.mpr hs1
  have hk2 : (l2.map (fun e => ParseIP e.Host)).Sorted (fun a b => bytesCompare a b ≤ 0) :=
    List.pairwise_map.mpr hs2
  exact List.eq_of_perm_of_sorted (hp.map _) hk1 hk2

theorem strict_of_injective (l : List HostToAppsDetail)
    (hs : l.Pairwise (fun x y => bytesCompare (ParseIP x.Host) (ParseIP y.Host) ≤ 0))
    (hnd : (l.map (fun e => e.Host)).Nodup)
    (hinj : ∀ a ∈ l, ∀ b ∈ l, ParseIP a.Host = ParseIP b.Host → a.Host = b.Host) :
    l.Pairwise (fun x y => bytesCompare (ParseIP x.Host) (ParseIP y.Host) < 0) := by
  have hne : l.Pairwise (fun a b => a.Host ≠ b.Host) := List.pairwise_map.mp hnd
  refine (hs.and hne).imp_of_mem ?_
  rintro a b ha hb ⟨hle, hab⟩
  exact lt_of_le_of_ne hle (fun h0 => hab (hinj a ha b hb (bytesCompare_eq_zero.mp h0)))

theorem results_unique (l1 l2 : List HostToAppsDetail) (hp : l1.Perm l2)
    (hs1 : l1.Pairwise (fun x y => bytesCompare (ParseIP x.Host) (ParseIP y.Host) ≤ 0))
    (hs2 : l2.Pairwise (fun x y => bytesCompare (ParseIP x.Host) (ParseIP y.Host) ≤ 0))
    (hnd : (l1.map (fun e => e.Host)).Nodup)
    (hinj : ∀ a ∈ l1, ∀ b ∈ l1, ParseIP a.Host = ParseIP b.Host → a.Host = b.Host) :
    l1 = l2 := by
  have hst1 := strict_of_injective l1 hs1 hnd hinj
  have hst2 := strict_of_injective l2 hs2
    ((hp.map (fun e => e.Host)).nodup_iff.mp hnd)
    (fun a ha b hb => hinj a (hp.mem_iff.mpr ha) b (hp.mem_iff.mpr hb))
  haveI : IsAntisymm HostToAppsDetail
      (fun x y => bytesCompare (ParseIP x.Host) (ParseIP y.Host) < 0) := ⟨by
    intro a b hab hba
    rw [bytesCompare_swap] at hba
    omega⟩
  have hk1 : l1.Sorted (fun x y => bytesCompare (ParseIP x.Host) (ParseIP y.Host) < 0) := hst1
  have hk2 : l2.Sorted (fun x y => bytesCompare (ParseIP x.Host) (ParseIP y.Host) < 0) := hst2
  exact List.eq_of_perm_of_sorted hp hk1 hk2

/-- Two runs of `listApps` against one backend, whatever the runtime does:
same error, same calls, reports that are permutations of each other with
the same sequence of keys, and the same report when no two hosts of the
report share a key. -/
theorem listApps_two_runs (rt1 rt2 : Runtime) (cf : Client) (h1 : rt1.Lawful)
    (h2 : rt2.Lawful) :
    ∃ r1 r2, listApps rt1 cf = some r1 ∧ listApps rt2 cf = some r2 ∧
      r1.err = r2.err ∧ r1.calls = r2.calls ∧ r1.results.Perm r2.results ∧
      r1.results.map (fun e => ParseIP e.Host) = r2.results.map (fun e => ParseIP e.Host) ∧
      ((∀ a ∈ r1.results, ∀ b ∈ r1.results,
          ParseIP a.Host = ParseIP b.Host → a.Host = b.Host) →
        r1.results = r2.results) := by
  obtain ⟨r1, hr1, hs1⟩ := listApps_success rt1 cf h1
  obtain ⟨r2, hr2, hs2⟩ := listApps_success rt2 cf h2
  refine ⟨r1, r2, hr1, hr2, ?_⟩
  rcases listApps_cases rt1 cf with ⟨e, m, calls, hrun, hc1⟩ | ⟨calls, hrun, hc1⟩
  · rcases listApps_cases rt2 cf with ⟨e2, m2, calls2, hrun2, hc2⟩ | ⟨calls2, hrun2, hc2⟩
    · rw [hrun] at hrun2
      cases hrun2
      rw [hr1] at hc1
      rw [hr2] at hc2
      cases hc1
      cases hc2
      exact ⟨rfl, rfl, List.Perm.refl _, rfl, fun _ => rfl⟩
    · rw [hrun] at hrun2
      cases hrun2
  · rcases listApps_cases rt2 cf with ⟨e2, m2, calls2, hrun2, hc2⟩ | ⟨calls2, hrun2, hc2⟩
    · rw [hrun] at hrun2
      cases hrun2
    · rw [hrun] at hrun2
      have hcalls : calls = calls2 := by
        cases hrun2
        rfl
      subst hcalls
      have he1 : r1.err = none := by
        rw [hr1] at hc1
        cases hc1
        rfl
      have he2 : r2.err = none := by
        rw [hr2] at hc2
        cases hc2
        rfl
      have hcl1 : r1.calls = calls := by
        rw [hr1] at hc1
        cases hc1
        rfl
      have hcl2 : r2.calls = calls := by
        rw [hr2] at hc2
        cases hc2
        rfl
      obtain ⟨hagg, _, hperm1, hpw1, _⟩ := hs1 he1
      obtain ⟨_, _, hperm2, hpw2, _⟩ := hs2 he2
      have hperm : r1.results.Perm r2.results := hperm1.trans hperm2.symm
      refine ⟨by rw [he1, he2], by rw [hcl1, hcl2], hperm,
        keys_eq_of_sorted_perm _ _ hperm hpw1 hpw2, fun hinj => ?_⟩
      exact results_unique _ _ hperm hpw1 hpw2 (report_nodup _ _ _ hagg hperm1) hinj

/-- C8, as the code has it: two runs of `listApps` against the same backend
return the same error, make the same calls and return reports with the same
entries and the same sequence of sort keys; the reports are identical
whenever no two hosts of the report parse to the same bytes. Entries whose
keys tie may come in either order. -/
theorem listApps_deterministic_up_to_ties (rt1 rt2 : Runtime) (cf : Client)
    (h1 : rt1.Lawful) (h2 : rt2.Lawful) :
    ∃ r1 r2, listApps rt1 cf = some r1 ∧ listApps rt2 cf = some r2 ∧
      r1.err = r2.err ∧ r1.calls = r2.calls ∧ r1.results.Perm r2.results ∧
      r1.results.map (fun e => ParseIP e.Host) = r2.results.map (fun e => ParseIP e.Host) ∧
      ((∀ a ∈ r1.results, ∀ b ∈ r1.results,
          ParseIP a.Host = ParseIP b.Host → a.Host = b.Host) →
        r1.results = r2.results) :=
  listApps_two_runs rt1 rt2 cf h1 h2

/-- Two runs against `mixedClient`, one visiting the map in insertion order
and one in the opposite order, return the same report. -/
theorem listApps_deterministic_witness :
    insertionRuntime.Lawful ∧ reverseRuntime.Lawful ∧
      ∃ r1 r2, listApps insertionRuntime mixedClient = some r1 ∧
        listApps reverseRuntime mixedClient = some r2 ∧
        r1.err = r2.err ∧ r1.calls = r2.calls ∧
        r1.results = [⟨"cell-a", ["A"]⟩, ⟨"10.0.0.5", ["A", "C"]⟩] ∧
        r1.results = r2.results := by
  refine ⟨insertionRuntime_lawful, reverseRuntime_lawful, ?_⟩
  obtain ⟨r1, r2, hr1, hr2, he, hc, _, _, h⟩ :=
    listApps_deterministic_up_to_ties insertionRuntime reverseRuntime mixedClient
      insertionRuntime_lawful reverseRuntime_lawful
  have hval : listApps insertionRuntime mixedClient =
      some ⟨[⟨"cell-a", ["A"]⟩, ⟨"10.0.0.5", ["A", "C"]⟩], none,
        [⟨.ApplicationsList 0, none⟩, ⟨.GetStatsForApp "guid-a", none⟩,
          ⟨.ApplicationsList 1, none⟩, ⟨.GetStatsForApp "guid-b", none⟩,
          ⟨.GetStatsForApp "guid-c", none⟩]⟩ := by decide
  have hr1c := hr1
  rw [hval] at hr1c
  cases hr1c
  exact ⟨_, r2, hr1, hr2, he, hc, rfl, h (by decide)⟩

/-- C8 fails when two hosts do not parse as addresses: a run that visits
the map in insertion order and a run that visits it in the opposite order
return the two entries in different orders. -/
theorem listApps_not_deterministic :
    insertionRuntime.Lawful ∧ reverseRuntime.Lawful ∧
      listApps insertionRuntime tieClient =
        some ⟨[⟨"cell-a", ["A"]⟩, ⟨"cell-b", ["A"]⟩], none,
          [⟨.ApplicationsList 0, none⟩, ⟨.GetStatsForApp "guid-a", none⟩]⟩ ∧
      listApps reverseRuntime tieClient =
        some ⟨[⟨"cell-b", ["A"]⟩, ⟨"cell-a", ["A"]⟩], none,
          [⟨.ApplicationsList 0, none⟩, ⟨.GetStatsForApp "guid-a", none⟩]⟩ ∧
      listApps insertionRuntime tieClient ≠ listApps reverseRuntime tieClient :=
  ⟨insertionRuntime_lawful, reverseRuntime_lawful, by decide, by decide, by decide⟩

/-! ## Names within an entry -/

theorem mem_appsAt (recs : List (String × String)) (h n : String) :
    n ∈ appsAt recs h ↔ (h, n) ∈ recs := by
  unfold appsAt
  simp only [List.mem_map, List.mem_filter, decide_eq_true_eq]
  constructor
  · rintro ⟨⟨h2, n2⟩, ⟨hp, rfl⟩, rfl⟩
    exact hp
  · intro hp
    exact ⟨(h, n), ⟨hp, rfl⟩, rfl⟩

/-- C5: in the report of a successful `listApps` every `Apps` list is in
ascending order, and two instance records on one host put the names of both
their applications in that host's entry; for the example of the
specification the report is 10.0.0.2 with B, then 10.0.0.5 with A and B. -/
theorem listApps_apps_sorted (rt : Runtime) (cf : Client) (hl : rt.Lawful) :
    (∃ r, listApps rt cf = some r ∧
      (r.err = none →
        (∀ e ∈ r.results, e.Apps.Sorted (fun a b => a ≤ b)) ∧
        (∀ app1 ∈ listedApps cf, ∀ app2 ∈ listedApps cf,
          ∀ s1 ∈ instancesOf cf app1, ∀ s2 ∈ instancesOf cf app2, s1.Host = s2.Host →
            ∃ e ∈ r.results, e.Host = s1.Host ∧ app1.Name ∈ e.Apps ∧ app2.Name ∈ e.Apps))) ∧
    (∃ r, listApps rt exampleClient = some r ∧ r.err = none ∧
      r.results = [⟨"10.0.0.2", ["B"]⟩, ⟨"10.0.0.5", ["A", "B"]⟩]) := by
  constructor
  · obtain ⟨r, hr, hs⟩ := listApps_success rt cf hl
    refine ⟨r, hr, fun he => ?_⟩
    obtain ⟨hagg, _, hperm, _, _⟩ := hs he
    refine ⟨fun e hmem => ?_, fun app1 h1 app2 h2 s1 hs1 s2 hs2 hh => ?_⟩
    · rw [((report_mem _ _ _ hagg hperm e).mp hmem).2]
      exact sortStrings_sorted _
    · have hp1 : (s1.Host, app1.Name) ∈ placements cf :=
        (mem_placements cf _ _).mpr ⟨app1, h1, rfl, s1, hs1, rfl⟩
      have hp2 : (s1.Host, app2.Name) ∈ placements cf :=
        (mem_placements cf _ _).mpr ⟨app2, h2, rfl, s2, hs2, hh.symm⟩
      have hh1 : s1.Host ∈ (placements cf).map Prod.fst :=
        List.mem_map.mpr ⟨_, hp1, rfl⟩
      refine ⟨⟨s1.Host, sortStrings (appsAt (placements cf) s1.Host)⟩,
        (report_mem _ _ _ hagg hperm _).mpr ⟨hh1, rfl⟩, rfl, ?_, ?_⟩
      · exact (sortStrings_perm _).mem_iff.mpr ((mem_appsAt _ _ _).mpr hp1)
      · exact (sortStrings_perm _).mem_iff.mpr ((mem_appsAt _ _ _).mpr hp2)
  · obtain ⟨r1, r2, hr1, hr2, he, _, _, _, h⟩ :=
      listApps_two_runs insertionRuntime rt exampleClient insertionRuntime_lawful hl
    have hval : listApps insertionRuntime exampleClient =
        some ⟨[⟨"10.0.0.2", ["B"]⟩, ⟨"10.0.0.5", ["A", "B"]⟩], none,
          [⟨.ApplicationsList 0, none⟩, ⟨.GetStatsForApp "guid-a", none⟩,
            ⟨.GetStatsForApp "guid-b", none⟩]⟩ := by decide
    rw [hval] at hr1
    cases hr1
    exact ⟨r2, hr2, he.symm, (h (by decide)).symm⟩

/-- The report of the example of the specification, in a run that visits
the map in the opposite order. -/
theorem listApps_apps_sorted_witness :
    reverseRuntime.Lawful ∧
      ∃ r, listApps reverseRuntime exampleClient = some r ∧ r.err = none ∧
        r.results = [⟨"10.0.0.2", ["B"]⟩, ⟨"10.0.0.5", ["A", "B"]⟩] ∧
        (∀ e ∈ r.results, e.Apps.Sorted (fun a b => a ≤ b)) := by
  refine ⟨reverseRuntime_lawful, ?_⟩
  obtain ⟨⟨r, hr, h⟩, ⟨r2, hr2, he2, hres2⟩⟩ :=
    listApps_apps_sorted reverseRuntime exampleClient reverseRuntime_lawful
  rw [hr] at hr2
  cases hr2
  exact ⟨r, hr, he2, hres2, (h he2).1⟩

/-! ## Dotted-decimal hosts -/

theorem parseIPv4Loop_spec (s : List Char) (prev : Option Char) (val digLen : Nat)
    (fields : List Nat) (v : Nat) (f : List Nat)
    (h : parseIPv4Loop s prev val digLen fields = some (v, f)) (hval : val ≤ 255)
    (hf : ∀ x ∈ fields, x ≤ 255) :
    (∀ c ∈ s, (48 ≤ c.toNat ∧ c.toNat ≤ 57) ∨ c = '.') ∧
      f.length = fields.length + s.count '.' ∧ v ≤ 255 ∧ ∀ x ∈ f, x ≤ 255 := by
  induction s generalizing prev val digLen fields with
  | nil =>
    simp only [parseIPv4Loop, Option.some.injEq, Prod.mk.injEq] at h
    obtain ⟨rfl, rfl⟩ := h
    exact ⟨by simp, by simp, hval, hf⟩
  | cons c rest ih =>
    simp only [parseIPv4Loop] at h
    by_cases hd : 48 ≤ c.toNat ∧ c.toNat ≤ 57
    · rw [if_pos hd] at h
      by_cases h1 : digLen = 1 ∧ val = 0
      · rw [if_pos h1] at h
        exact Option.noConfusion h
      · rw [if_neg h1] at h
        by_cases h2 : val * 10 + (c.toNat - 48) > 255
        · rw [if_pos h2] at h
          exact Option.noConfusion h
        · rw [if_neg h2] at h
          obtain ⟨ha, hb, hc, hx⟩ := ih _ _ _ _ h (by omega) hf
          have hne : c ≠ '.' := by
            rintro rfl
            revert hd
            decide
          refine ⟨?_, ?_, hc, hx⟩
          · intro x hx2
            rcases List.mem_cons.mp hx2 with rfl | hx3
            · exact Or.inl hd
            · exact ha x hx3
          · rw [List.count_cons_of_ne hne.symm]
            exact hb
    · rw [if_neg hd] at h
      by_cases hdot : c = '.'
      · rw [if_pos hdot] at h
        by_cases h3 : prev = none ∨ rest = [] ∨ prev = some '.'
        · rw [if_pos h3] at h
          exact Option.noConfusion h
        · rw [if_neg h3] at h
          by_cases h4 : fields.length = 3
          · rw [if_pos h4] at h
            exact Option.noConfusion h
          · rw [if_neg h4] at h
            have hf2 : ∀ x ∈ fields ++ [val], x ≤ 255 := by
              intro x hx
              rcases List.mem_append.mp hx with hx | hx
              · exact hf x hx
              · rw [List.mem_singleton] at hx
                omega
            obtain ⟨ha, hb, hc, hx⟩ := ih _ _ _ _ h (by omega) hf2
            refine ⟨?_, ?_, hc, hx⟩
            · intro x hx2
              rcases List.mem_cons.mp hx2 with rfl | hx3
              · exact Or.inr hdot
              · exact ha x hx3
            · rw [hdot, List.count_cons_self, hb, List.length_append, List.length_singleton]
              omega
      · rw [if_neg hdot] at h
        exact Option.noConfusion h

theorem parseAddr_of_dotted (full s : List Char)
    (hs : ∀ c ∈ s, (48 ≤ c.toNat ∧ c.toNat ≤ 57) ∨ c = '.') (hdot : '.' ∈ s) :
    parseAddr full s =
      match parseIPv4Fields full with
      | none => none
      | some f => some (IPv4 (f.getD 0 0) (f.getD 1 0) (f.getD 2 0) (f.getD 3 0)) := by
  induction s with
  | nil => simp at hdot
  | cons c rest ih =>
    by_cases hc : c = '.'
    · simp only [parseAddr, hc, if_true]
    · have hdigit : 48 ≤ c.toNat ∧ c.toNat ≤ 57 := by
        rcases hs c (List.mem_cons_self c rest) with h | h
        · exact h
        · exact absurd h hc
      have hcolon : c ≠ ':' := by
        rintro rfl
        revert hdigit
        decide
      have hpct : c ≠ '%' := by
        rintro rfl
        revert hdigit
        decide
      simp only [parseAddr, hc, hcolon, hpct, if_false]
      apply ih
      · intro x hx
        exact hs x (List.mem_cons_of_mem c hx)
      · rcases List.mem_cons.mp hdot with h | h
        · exact absurd h.symm hc
        · exact h

/-- A host that Go reads as the dotted-decimal address `a.b.c.d` has the
key `net.IPv4(a, b, c, d)`, and its octets are at most 255. -/
theorem ParseIP_of_dotted (s : String) (a b c d : Nat)
    (h : parseIPv4Fields s.toList = some [a, b, c, d]) :
    ParseIP s = IPv4 a b c d ∧ a ≤ 255 ∧ b ≤ 255 ∧ c ≤ 255 ∧ d ≤ 255 := by
  have h0 := h
  unfold parseIPv4Fields at h
  cases hl : parseIPv4Loop s.toList none 0 0 [] with
  | none =>
    rw [hl] at h
    exact Option.noConfusion h
  | some vf =>
    obtain ⟨v, f⟩ := vf
    rw [hl] at h
    simp only at h
    by_cases h3 : f.length < 3
    · rw [if_pos h3] at h
      exact Option.noConfusion h
    · rw [if_neg h3] at h
      have hfv : f ++ [v] = [a, b, c, d] := Option.some.inj h
      obtain ⟨hchars, hlen, hv, hfb⟩ :=
        parseIPv4Loop_spec s.toList none 0 0 [] v f hl (by omega) (by simp)
      have hflen : f.length = 3 := by
        have := congrArg List.length hfv
        simp at this
        omega
      have hdot : '.' ∈ s.toList := by
        apply List.count_pos_iff.mp
        simp only [List.length_nil, zero_add] at hlen
        omega
      have hbound : ∀ x ∈ [a, b, c, d], x ≤ 255 := by
        intro x hx
        rw [← hfv] at hx
        rcases List.mem_append.mp hx with hx | hx
        · exact hfb x hx
        · rw [List.mem_singleton] at hx
          omega
      refine ⟨?_, hbound a (by simp), hbound b (by simp), hbound c (by simp),
        hbound d (by simp)⟩
      unfold ParseIP
      rw [parseAddr_of_dotted s.toList s.toList hchars hdot, h0]
      rfl

theorem ipv4Value_le_of_bytesCompare (a b c d a2 b2 c2 d2 : Nat) (hb : b ≤ 255)
    (hc : c ≤ 255) (hd : d ≤ 255) (hb2 : b2 ≤ 255) (hc2 : c2 ≤ 255) (hd2 : d2 ≤ 255)
    (h : bytesCompare (IPv4 a b c d) (IPv4 a2 b2 c2 d2) ≤ 0) :
    ipv4Value a b c d ≤ ipv4Value a2 b2 c2 d2 := by
  simp only [IPv4, bytesCompare, lt_irrefl, if_false] at h
  simp only [ipv4Value]
  norm_num
  split_ifs at h <;> omega

/-- C9: in the report of a successful `listApps`, of two entries whose
hosts are dotted-decimal IPv4 addresses `a.b.c.d` and `a2.b2.c2.d2` the one
with the smaller value `a·2^24 + b·2^16 + c·2^8 + d` has the smaller index,
whatever the textual order of the two hosts. -/
theorem listApps_numeric_order (rt : Runtime) (cf : Client) (hl : rt.Lawful) :
    ∃ r, listApps rt cf = some r ∧
      (r.err = none →
        ∀ (i j : Nat) (u v : HostToAppsDetail) (a b c d a2 b2 c2 d2 : Nat),
          r.results[i]? = some u → r.results[j]? = some v →
          parseIPv4Fields u.Host.toList = some [a, b, c, d] →
          parseIPv4Fields v.Host.toList = some [a2, b2, c2, d2] →
          ipv4Value a b c d < ipv4Value a2 b2 c2 d2 → i < j) := by
  obtain ⟨r, hr, hs⟩ := listApps_success rt cf hl
  refine ⟨r, hr, fun he i j u v a b c d a2 b2 c2 d2 h1 h2 hu hv hlt => ?_⟩
  obtain ⟨_, _, _, hpw, _⟩ := hs he
  obtain ⟨hi, rfl⟩ := List.getElem?_eq_some.mp h1
  obtain ⟨hj, rfl⟩ := List.getElem?_eq_some.mp h2
  obtain ⟨hku, _, hb, hc, hd⟩ := ParseIP_of_dotted _ a b c d hu
  obtain ⟨hkv, _, hb2, hc2, hd2⟩ := ParseIP_of_dotted _ a2 b2 c2 d2 hv
  by_contra hij
  rcases Nat.lt_or_ge j i with hji | hge
  · have hle := List.pairwise_iff_getElem.mp hpw j i hj hi hji
    rw [hku, hkv] at hle
    have := ipv4Value_le_of_bytesCompare a2 b2 c2 d2 a b c d hb2 hc2 hd2 hb hc hd hle
    omega
  · have hji : j = i := by omega
    subst hji
    rw [hu] at hv
    cases hv
    omega

/-- The report of `numericClient`: 9.255.255.255 comes before 10.0.0.0 and
10.0.0.9 before 10.0.0.10. -/
theorem listApps_numeric_order_witness :
    insertionRuntime.Lawful ∧
      parseIPv4Fields "10.0.0.9".toList = some [10, 0, 0, 9] ∧
      parseIPv4Fields "10.0.0.10".toList = some [10, 0, 0, 10] ∧
      ipv4Value 10 0 0 9 < ipv4Value 10 0 0 10 ∧
      ∃ r, listApps insertionRuntime numericClient = some r ∧ r.err = none ∧
        r.results.map (fun e => e.Host) =
          ["9.255.255.255", "10.0.0.0", "10.0.0.9", "10.0.0.10"] ∧
        ∀ (i j : Nat) (u v : HostToAppsDetail) (a b c d a2 b2 c2 d2 : Nat),
          r.results[i]? = some u → r.results[j]? = some v →
          parseIPv4Fields u.Host.toList = some [a, b, c, d] →
          parseIPv4Fields v.Host.toList = some [a2, b2, c2, d2] →
          ipv4Value a b c d < ipv4Value a2 b2 c2 d2 → i < j := by
  refine ⟨insertionRuntime_lawful, by decide, by decide, by decide, ?_⟩
  obtain ⟨r, hr, h⟩ :=
    listApps_numeric_order insertionRuntime numericClient insertionRuntime_lawful
  have hval : listApps insertionRuntime numericClient =
      some ⟨[⟨"9.255.255.255", ["A"]⟩, ⟨"10.0.0.0", ["A"]⟩, ⟨"10.0.0.9", ["A"]⟩,
          ⟨"10.0.0.10", ["A"]⟩], none,
        [⟨.ApplicationsList 0, none⟩, ⟨.GetStatsForApp "guid-a", none⟩]⟩ := by decide
  rw [hval] at hr
  cases hr
  exact ⟨_, hval, rfl, rfl, h rfl⟩

/-! ## The handler -/

/-- When `listApps` fails, `IndexHandler` logs the error, calls
`WriteHeader(500)` and then goes on as for a success: it sets the content
type, calls `WriteHeader(200)` and writes the heading of the page. -/
theorem IndexHandler_on_error (rt : Runtime) (cf : Client) (r : ListAppsResult) (e : GoError)
    (h : listApps rt cf = some r) (he : r.err = some e) :
    IndexHandler rt cf =
      some [.logPrintf e, .WriteHeader 500, .HeaderSet "Content-Type" "text/html",
        .WriteHeader 200, .Fprint "<h1>CF Application Placements</h1>"] := by
  rcases listApps_cases rt cf with ⟨e2, m, calls, _, hc⟩ | ⟨calls, _, hc⟩
  · rw [h] at hc
    cases hc
    cases he
    simp [IndexHandler, h]
  · rw [h] at hc
    cases hc
    simp at he

/-- C10 does not hold of the code: when the first page request fails,
`IndexHandler` calls `WriteHeader(500)` and does not stop there; it calls
`WriteHeader(200)` and writes the heading of the report page. -/
theorem IndexHandler_failure_falls_through :
    listApps insertionRuntime failingClient =
        some ⟨[], some "connection refused",
          [⟨.ApplicationsList 0, some "connection refused"⟩]⟩ ∧
      IndexHandler insertionRuntime failingClient =
        some [.logPrintf "connection refused", .WriteHeader 500,
          .HeaderSet "Content-Type" "text/html", .WriteHeader 200,
          .Fprint "<h1>CF Application Placements</h1>"] := by
  decide

end CfStats
